import Mathlib

/-!
Shallow embedding of the rich-text run-extraction, translation-orchestration
and recomposition code of the slide-translation add-in, together with proofs
of the specified properties.  JavaScript strings are modelled as lists of
characters (`Str`); JavaScript `Map`s are modelled as association lists with
insertion-order semantics (`jget` / `jset`).
-/

namespace PPT

abbrev Str := List Char

/-! ## Character classes (src/utils/text.ts)

`isJsWs` models the JavaScript `\s` character class used by the regexes in
`preserveWhitespace` and `isNonTranslatable`; `isProtectedChar` models the
protected punctuation / digit / symbol class of `isNonTranslatable`. -/

def isJsWs (c : Char) : Bool :=
  let n := c.toNat
  n = 0x20 || n = 0x09 || n = 0x0A || n = 0x0B || n = 0x0C || n = 0x0D ||
  n = 0xA0 || n = 0x1680 || (0x2000 ≤ n && n ≤ 0x200A) || n = 0x2028 ||
  n = 0x2029 || n = 0x202F || n = 0x205F || n = 0x3000 || n = 0xFEFF

def isProtectedChar (c : Char) : Bool :=
  let n := c.toNat
  isJsWs c || (0x30 ≤ n && n ≤ 0x39) ||
  ([0x2E, 0x2C, 0x25, 0x2B, 0x2D, 0x2013, 0x2014, 0x28, 0x29, 0x5B, 0x5D,
    0x7B, 0x7D, 0x3C, 0x3E, 0x3A, 0x3B, 0x21, 0x3F, 0x2F, 0x5C, 0x7C, 0x40,
    0x23, 0x5E, 0x26, 0x2A, 0x3D, 0x7E, 0x60, 0x27, 0x22, 0x20AC, 0x24,
    0xA3, 0xA5] : List Nat).contains n

/-- `isNonTranslatable` from src/utils/types.ts lines 89-94: empty, or
whitespace-only, or composed solely of protected characters. -/
def isNonTranslatable (t : Str) : Bool :=
  if t.isEmpty then true
  else if t.all isJsWs then true
  else t.all isProtectedChar

/-- maximal leading JS-whitespace segment (`original.match(/^\s+/)`). -/
def leadWs (s : Str) : Str := s.takeWhile isJsWs

/-- maximal trailing JS-whitespace segment (`original.match(/\s+$/)`). -/
def trailWs (s : Str) : Str := (s.reverse.takeWhile isJsWs).reverse

/-- JavaScript `String.prototype.trim`. -/
def jsTrim (s : Str) : Str := ((s.dropWhile isJsWs).reverse.dropWhile isJsWs).reverse

/-- `preserveWhitespace` from src/utils/types.ts lines 83-87. -/
def preserveWhitespace (original translated : Str) : Str :=
  leadWs original ++ jsTrim translated ++ trailWs original

/-! ## Font and paragraph snapshots (src/utils/types.ts, formatting module) -/

structure FontSnapshot where
  allCaps : Bool
  bold : Bool
  color : String
  doubleStrikethrough : Bool
  italic : Bool
  name : String
  size : Nat
  smallCaps : Bool
  strikethrough : Bool
  subscript : Bool
  superscript : Bool
  underline : String
deriving DecidableEq

def boolStr (b : Bool) : String := if b then "true" else "false"

/-- `fontKey` from the formatting module: the 12 fields joined with `|`. -/
def fontKey (f : FontSnapshot) : String :=
  String.intercalate "|"
    [boolStr f.allCaps, boolStr f.bold, f.color, boolStr f.doubleStrikethrough,
     boolStr f.italic, f.name, toString f.size, boolStr f.smallCaps,
     boolStr f.strikethrough, boolStr f.subscript, boolStr f.superscript,
     f.underline]

/-- A raw host font probe result: every attribute may be null/undefined. -/
structure RawFont where
  allCaps : Option Bool
  bold : Option Bool
  color : Option String
  doubleStrikethrough : Option Bool
  italic : Option Bool
  name : Option String
  size : Option Nat
  smallCaps : Option Bool
  strikethrough : Option Bool
  subscript : Option Bool
  superscript : Option Bool
  underline : Option String
deriving DecidableEq

/-- `safeFontSnapshot`: missing attributes fall back to fixed defaults. -/
def safeFontSnapshot (f : RawFont) : FontSnapshot :=
  { allCaps := f.allCaps.getD false
    bold := f.bold.getD false
    color := f.color.getD "#FFFFFF"
    doubleStrikethrough := f.doubleStrikethrough.getD false
    italic := f.italic.getD false
    name := f.name.getD ""
    size := f.size.getD 12
    smallCaps := f.smallCaps.getD false
    strikethrough := f.strikethrough.getD false
    subscript := f.subscript.getD false
    superscript := f.superscript.getD false
    underline := f.underline.getD "None" }

def defaultFontSnapshot : FontSnapshot :=
  { allCaps := false, bold := false, color := "#FFFFFF",
    doubleStrikethrough := false, italic := false, name := "", size := 12,
    smallCaps := false, strikethrough := false, subscript := false,
    superscript := false, underline := "None" }

/-- the `mixed` test of `extractRunsByBinarySplit`: some probed attribute is
null or undefined. -/
def mixedRaw (f : RawFont) : Bool :=
  f.allCaps.isNone || f.bold.isNone || f.color.isNone ||
  f.doubleStrikethrough.isNone || f.italic.isNone || f.name.isNone ||
  f.size.isNone || f.smallCaps.isNone || f.strikethrough.isNone ||
  f.subscript.isNone || f.superscript.isNone || f.underline.isNone

structure ParagraphFormatSnapshot where
  horizontalAlignment : Option String
  indentLevel : Option Nat
  bulletVisible : Option Bool
  bulletType : Option String
  bulletStyle : Option String
deriving DecidableEq

structure Run where
  text : Str
  font : FontSnapshot
deriving DecidableEq

structure Paragraph where
  id : String
  originalCharCount : Nat
  runs : List Run
  paragraphFormat : Option ParagraphFormatSnapshot
deriving DecidableEq

def concatTexts (runs : List Run) : Str := (runs.map Run.text).flatten

/-! ## JS `Map` as an association list (insertion order, set overwrites) -/

def jget {κ β : Type} [DecidableEq κ] (m : List (κ × β)) (k : κ) : Option β :=
  (m.find? (fun e => e.1 = k)).map (·.2)

def jset {κ β : Type} [DecidableEq κ] (m : List (κ × β)) (k : κ) (v : β) :
    List (κ × β) :=
  if (m.find? (fun e => e.1 = k)).isSome then
    m.map (fun e => if e.1 = k then (k, v) else e)
  else m ++ [(k, v)]

/-- `new Map(pairs)`: later entries overwrite earlier ones. -/
def jmapOf {κ β : Type} [DecidableEq κ] (l : List (κ × β)) : List (κ × β) :=
  l.foldl (fun m e => jset m e.1 e.2) []

/-! ## Run boundary detection (formatting module) -/

def coalesceGo (cur : Run) : List Run → List Run
  | [] => [cur]
  | r :: rest =>
    if fontKey cur.font = fontKey r.font then
      coalesceGo ⟨cur.text ++ r.text, cur.font⟩ rest
    else cur :: coalesceGo r rest

/-- The merge loop shared by both extraction strategies: adjacent pieces with
equal font keys are merged into one run. -/
def coalesce : List Run → List Run
  | [] => []
  | r :: rest => coalesceGo r rest

/-- `extractRunsByCharScan`: probe the font of every single character of the
paragraph, then merge adjacent characters with equal snapshots. -/
def extractRunsByCharScan (probe : Nat → Nat → RawFont) (pStart : Nat)
    (text : Str) : List Run :=
  coalesce ((List.enum text).map
    (fun ic => ⟨[ic.2], safeFontSnapshot (probe (pStart + ic.1) 1)⟩))

structure BSpan where
  start : Nat
  length : Nat
  font : FontSnapshot
deriving DecidableEq

/-- The recursive probe of `extractRunsByBinarySplit`: a sub-range whose
probed snapshot has no ambiguous attribute (or of length at most 1) is a
leaf; otherwise it is split in half and both halves are probed. -/
def splitSpans (probe : Nat → Nat → RawFont) (start len : Nat) : List BSpan :=
  if h : mixedRaw (probe start len) = true ∧ 1 < len then
    splitSpans probe start (len / 2) ++
      splitSpans probe (start + len / 2) (len - len / 2)
  else
    [⟨start, len, safeFontSnapshot (probe start len)⟩]
termination_by len
decreasing_by
  · exact Nat.div_lt_self (by omega) (by omega)
  · have hp : 0 < len / 2 := Nat.div_pos (by omega) (by omega)
    omega

/-- `paragraphText.slice(a, a + n)`. -/
def sliceL (l : Str) (s n : Nat) : Str := (l.drop s).take n

/-- `extractRunsByBinarySplit`: recursive probing, sort by start offset, cut
the corresponding text pieces, merge adjacent pieces with equal fonts. -/
def extractRunsByBinarySplit (probe : Nat → Nat → RawFont) (pStart : Nat)
    (text : Str) : List Run :=
  let spans := (splitSpans probe pStart text.length).mergeSort
    (fun a b => a.start ≤ b.start)
  coalesce (spans.map (fun s => ⟨sliceL text (s.start - pStart) s.length, s.font⟩))

/-- `extractRunsByFont`: empty paragraphs give one empty default run; small
paragraphs use the character scan, large ones the binary split. -/
def extractRunsByFont (probe : Nat → Nat → RawFont) (pStart : Nat)
    (text : Str) : List Run :=
  if text.length = 0 then [⟨[], defaultFontSnapshot⟩]
  else if text.length ≤ 1500 then extractRunsByCharScan probe pStart text
  else extractRunsByBinarySplit probe pStart text

/-! ## Recomposition (formatting module and composeText) -/

structure TRun where
  index : Nat
  text : Str
deriving DecidableEq

/-- `applyRunTranslations`: replace each translatable run's text by the
whitespace-preserving translation at its index; non-translatable runs and
absent indices keep the original run. -/
def applyRunTranslations (p : Paragraph) (translatedRuns : List TRun) :
    Paragraph :=
  let m := jmapOf (translatedRuns.map (fun r => (r.index, r.text)))
  { p with runs := (List.enum p.runs).map (fun ir =>
      if isNonTranslatable ir.2.text then ir.2
      else
        match jget m ir.1 with
        | none => ir.2
        | some t => ⟨preserveWhitespace ir.2.text t, ir.2.font⟩) }

structure RSpan where
  start : Nat
  length : Nat
  font : FontSnapshot
deriving DecidableEq

structure PSpan where
  start : Nat
  length : Nat
  format : Option ParagraphFormatSnapshot
deriving DecidableEq

def composeRuns (runs : List Run) (offset : Nat) : Str × List RSpan :=
  match runs with
  | [] => ([], [])
  | r :: rest =>
    let tl := composeRuns rest (offset + r.text.length)
    (r.text ++ tl.1, ⟨offset, r.text.length, r.font⟩ :: tl.2)

def composeParas (keep : Bool) : List Paragraph → Nat →
    Str × List PSpan × List RSpan
  | [], _ => ([], [], [])
  | p :: rest, offset =>
    let cr := composeRuns p.runs offset
    let pLen := cr.1.length
    let joiner : Str := if rest.isEmpty then [] else [if keep then '\n' else ' ']
    let tl := composeParas keep rest (offset + pLen + joiner.length)
    (cr.1 ++ joiner ++ tl.1, ⟨offset, pLen, p.paragraphFormat⟩ :: tl.2.1,
      cr.2 ++ tl.2.2)

structure Composed where
  fullText : Str
  paragraphSpans : List PSpan
  runSpans : List RSpan
deriving DecidableEq

/-- `composeText` from src/services/storage.ts lines 623-656: concatenate run
texts, with a `\n` or a space between consecutive paragraphs, recording the
character span of every run and of every paragraph. -/
def composeText (paragraphs : List Paragraph) (keepLineBreaks : Bool) :
    Composed :=
  let t := composeParas keepLineBreaks paragraphs 0
  ⟨t.1, t.2.1, t.2.2⟩

/-! ## Translation orchestrator (src/services/storage.ts) -/

structure TranslateBatchItem where
  paragraphId : String
  originalChars : Nat
  runs : List TRun
deriving DecidableEq

structure TranslationResult where
  paragraphId : String
  translatedRuns : List TRun
deriving DecidableEq

structure TableRunSnapshot where
  text : Str
  font : Option RawFont
deriving DecidableEq

structure ShapeTextTarget where
  shapeId : String
  shapeName : String
  paragraphs : List Paragraph
deriving DecidableEq

structure TableCellTarget where
  shapeId : String
  shapeName : String
  row : Nat
  col : Nat
  paragraphId : String
  originalChars : Nat
  runs : List TableRunSnapshot
deriving DecidableEq

structure SlideTargets where
  slideIndex : Nat
  shapeTextTargets : List ShapeTextTarget
  tableCellTargets : List TableCellTarget
deriving DecidableEq

/-- `isSkippable` inside `buildTranslateItems`: every run non-translatable. -/
def isSkippable (runs : List TRun) : Bool :=
  runs.all (fun r => isNonTranslatable r.text)

/-- `buildTranslateItems` from src/services/storage.ts lines 403-427. -/
def buildTranslateItems (targets : SlideTargets) : List TranslateBatchItem :=
  (targets.shapeTextTargets.flatMap (fun t =>
    t.paragraphs.filterMap (fun p =>
      let runs := (List.enum p.runs).map (fun ir => TRun.mk ir.1 ir.2.text)
      if isSkippable runs then none
      else some ⟨p.id, p.originalCharCount, runs⟩)))
  ++ targets.tableCellTargets.filterMap (fun t =>
      let runs := (List.enum t.runs).map (fun ir => TRun.mk ir.1 ir.2.text)
      if isSkippable runs then none
      else some ⟨t.paragraphId, t.originalChars, runs⟩)

/-- The table-cell write-back of `applySlideTranslations` lines 610-614:
substitute translated text index-for-index, keeping each run's font. -/
def applyTableCellRuns (cellRuns : List TableRunSnapshot)
    (translatedRuns : List TRun) : List TableRunSnapshot :=
  let runMap := jmapOf (translatedRuns.map (fun r => (r.index, r.text)))
  (List.enum cellRuns).map (fun ir => ⟨(jget runMap ir.1).getD ir.2.text, ir.2.font⟩)

structure ChunkSt where
  chunks : List (List TranslateBatchItem)
  current : List TranslateBatchItem
  sum : Nat

/-- one iteration of the `chunkByChars` loop. -/
def chunkStep (maxChars maxItems : Nat) (st : ChunkSt)
    (item : TranslateBatchItem) : ChunkSt :=
  if maxItems ≤ st.current.length ∨ maxChars < st.sum + item.originalChars then
    { chunks := st.chunks ++ if st.current.isEmpty then [] else [st.current],
      current := [item], sum := item.originalChars }
  else
    { chunks := st.chunks, current := st.current ++ [item],
      sum := st.sum + item.originalChars }

/-- `chunkByChars` from src/services/storage.ts lines 429-448 (defaults are
`maxChars = 12000`, `maxItems = 60`). -/
def chunkByChars (items : List TranslateBatchItem) (maxChars maxItems : Nat) :
    List (List TranslateBatchItem) :=
  let st := items.foldl (chunkStep maxChars maxItems) ⟨[], [], 0⟩
  st.chunks ++ if st.current.isEmpty then [] else [st.current]

def sumChars (c : List TranslateBatchItem) : Nat :=
  (c.map TranslateBatchItem.originalChars).sum

/-- `translateKey`: the fingerprint is `JSON.stringify` of the ordered run
texts, injective on text sequences, modelled by the sequence itself. -/
def translateKey (item : TranslateBatchItem) : List Str :=
  item.runs.map TRun.text

/-- State of the dedup loop of `translateAndMaybeApplySlide` lines 497-512. -/
structure DedupSt where
  cache : List (List Str × List TRun)
  pending : List TranslateBatchItem
  keyToIds : List (List Str × List String)
  idToKey : List (String × List Str)
  allResults : List TranslationResult
deriving DecidableEq

def dedupStep (st : DedupSt) (item : TranslateBatchItem) : DedupSt :=
  let key := translateKey item
  match jget st.cache key with
  | some cached =>
    { st with allResults := st.allResults ++ [⟨item.paragraphId, cached⟩] }
  | none =>
    match jget st.keyToIds key with
    | some ids =>
      { st with keyToIds := jset st.keyToIds key (ids ++ [item.paragraphId]) }
    | none =>
      { st with keyToIds := jset st.keyToIds key [item.paragraphId],
                idToKey := jset st.idToKey item.paragraphId key,
                pending := st.pending ++ [item] }

def dedupItems (items : List TranslateBatchItem)
    (cache0 : List (List Str × List TRun)) : DedupSt :=
  items.foldl dedupStep ⟨cache0, [], [], [], []⟩

/-- one iteration of the fan-out loop (lines 516-524): look the responding
paragraph id up in `idToKey`, refresh the cache and push the translated runs
to every paragraph id sharing the fingerprint. -/
def fanOutStep (st : DedupSt)
    (acc : List (List Str × List TRun) × List TranslationResult)
    (r : TranslationResult) :
    List (List Str × List TRun) × List TranslationResult :=
  match jget st.idToKey r.paragraphId with
  | none => acc
  | some key =>
    (jset acc.1 key r.translatedRuns,
     acc.2 ++ ((jget st.keyToIds key).getD []).map
       (fun id => ⟨id, r.translatedRuns⟩))

def fanOut (st : DedupSt) (rs : List TranslationResult) :
    List (List Str × List TRun) × List TranslationResult :=
  rs.foldl (fanOutStep st) (st.cache, st.allResults)

/-- the final `map` of `translateAndMaybeApplySlide` (lines 526-527): a JS
`Map` built by setting every result under its paragraph id (last one wins). -/
def resultMap (rs : List TranslationResult) : List (String × List TRun) :=
  jmapOf (rs.map (fun r => (r.paragraphId, r.translatedRuns)))

/-! ## The worker pool of `translateChunks` (lines 454-478), as a transition
system.  Each worker repeatedly: checks the abort flag, claims the next chunk
index from the shared cursor, awaits the provider, pushes the results and
loops.  `translateBatch` throwing makes the worker's promise reject, and
`Promise.all` then rejects the whole call. -/

inductive WStat where
  | idle
  | awaiting (i : Nat)
  | finished
  | failed
deriving DecidableEq

structure TCState where
  cursor : Nat
  aborted : Bool
  workers : List WStat
  results : List TranslationResult
deriving DecidableEq

inductive TCStep (nChunks : Nat)
    (resp : Nat → Except String (List TranslationResult)) :
    TCState → TCState → Prop where
  | abort (s : TCState) :
      TCStep nChunks resp s { s with aborted := true }
  | claim (s : TCState) (w : Nat) (hw : s.workers[w]? = some .idle)
      (hab : s.aborted = false) (hc : s.cursor < nChunks) :
      TCStep nChunks resp s
        { s with cursor := s.cursor + 1,
                 workers := s.workers.set w (.awaiting s.cursor) }
  | exitAbort (s : TCState) (w : Nat) (hw : s.workers[w]? = some .idle)
      (hab : s.aborted = true) :
      TCStep nChunks resp s { s with workers := s.workers.set w .finished }
  | exitDone (s : TCState) (w : Nat) (hw : s.workers[w]? = some .idle)
      (hab : s.aborted = false) (hc : nChunks ≤ s.cursor) :
      TCStep nChunks resp s { s with workers := s.workers.set w .finished }
  | completeOk (s : TCState) (w i : Nat) (rs : List TranslationResult)
      (hw : s.workers[w]? = some (.awaiting i)) (hr : resp i = .ok rs) :
      TCStep nChunks resp s
        { s with workers := s.workers.set w .idle,
                 results := s.results ++ rs }
  | completeErr (s : TCState) (w i : Nat) (e : String)
      (hw : s.workers[w]? = some (.awaiting i)) (hr : resp i = .error e) :
      TCStep nChunks resp s { s with workers := s.workers.set w .failed }

def tcInit (nWorkers : Nat) : TCState :=
  ⟨0, false, List.replicate nWorkers .idle, []⟩

/-- all workers have left their loops (normally or by a rejection). -/
def terminalTC (s : TCState) : Prop :=
  ∀ w ∈ s.workers, w = WStat.finished ∨ w = WStat.failed

/-- the value of `translateChunks`'s promise: `Promise.all` rejects if some
worker rejected, otherwise resolves with the pushed results. -/
def outcomeOf (s : TCState) : Except Unit (List TranslationResult) :=
  if s.workers.contains .failed then .error () else .ok s.results

/-- the observable effect of a completed chunk: its results pushed when the
provider parsed, a rejected (failed) worker when it did not. -/
def chunkDone (resp : Nat → Except String (List TranslationResult))
    (s : TCState) (i : Nat) : Prop :=
  match resp i with
  | .ok rs => ∀ r ∈ rs, r ∈ s.results
  | .error _ => WStat.failed ∈ s.workers

/-- invariant of the worker pool: every claimed chunk index is either being
awaited by some worker or has already taken effect. -/
def TCInv (resp : Nat → Except String (List TranslationResult))
    (s : TCState) : Prop :=
  ∀ i, i < s.cursor →
    (∃ w : Nat, s.workers[w]? = some (WStat.awaiting i)) ∨ chunkDone resp s i

/-- concrete provider responses: chunk 0 returns a non-parseable payload
(`translateBatch` throws), chunk 1 parses. -/
def c3resp : Nat → Except String (List TranslationResult) :=
  fun i => if i = 0 then .error "parse" else .ok [⟨"p1", [⟨0, "Bonjour".toList⟩]⟩]

/-! ## The slide loop of `translateScope` (lines 658-702).  `abortAt j`
tells whether the abort signal is already observed at the j-th check;
`slideRun` is the per-slide translate-and-apply call, which may reject.
The result is the list of slide indices actually processed plus the final
cancelled flag (`true` models the final label "Annulé"). -/

def scopeLoop (abortAt : Nat → Bool) (slideRun : Nat → Except String Nat) :
    Nat → List Nat → Except String (List Nat × Bool)
  | j, [] => .ok ([], abortAt j)
  | j, idx :: rest =>
    if abortAt j then .ok ([], true)
    else
      match slideRun idx with
      | .error e => .error e
      | .ok _ =>
        match scopeLoop abortAt slideRun (j + 1) rest with
        | .error e => .error e
        | .ok lb => .ok (idx :: lb.1, lb.2)

/-- `tiles a spans b`: the (start, length) spans exactly tile the character
interval from `a` to `b`, in order and without gaps or overlaps. -/
def tilesN : Nat → List (Nat × Nat) → Nat → Prop
  | a, [], b => a = b
  | a, p :: rest, b => p.1 = a ∧ tilesN (a + p.2) rest b

/-- characterization of `keyToIds` after the dedup loop has consumed the
items of `L`: an uncached fingerprint maps to the paragraph ids of exactly
the items carrying it, in order. -/
def keyIdsSpec (cache0 : List (List Str × List TRun))
    (L : List TranslateBatchItem) (st : DedupSt) : Prop :=
  ∀ k, jget st.keyToIds k =
    (if (jget cache0 k).isSome then none
     else if (L.filter (fun it => translateKey it = k)).isEmpty then none
     else some ((L.filter (fun it => translateKey it = k)).map
        TranslateBatchItem.paragraphId))

/-- characterization of `pending`: one representative item per uncached
fingerprint that occurs. -/
def pendingSpec (cache0 : List (List Str × List TRun))
    (L : List TranslateBatchItem) (st : DedupSt) : Prop :=
  ∀ k, st.pending.countP (fun it => translateKey it = k) =
    if !(jget cache0 k).isSome
        && !(L.filter (fun it => translateKey it = k)).isEmpty
    then 1 else 0

/-- characterization of `allResults` after the dedup loop: exactly the
cache hits, each paired with its cached translated runs. -/
def resultsSpec (cache0 : List (List Str × List TRun))
    (L : List TranslateBatchItem) (st : DedupSt) : Prop :=
  st.allResults =
    (L.filter (fun it => (jget cache0 (translateKey it)).isSome)).map
      (fun it => ⟨it.paragraphId, (jget cache0 (translateKey it)).getD []⟩)

def dedupSpec (cache0 : List (List Str × List TRun))
    (L : List TranslateBatchItem) (st : DedupSt) : Prop :=
  st.cache = cache0 ∧ keyIdsSpec cache0 L st ∧ pendingSpec cache0 L st
    ∧ resultsSpec cache0 L st

/-- well-formedness of one produced chunk, at the default bounds. -/
def chunkOk (c : List TranslateBatchItem) : Prop :=
  c ≠ [] ∧ c.length ≤ 60 ∧ (sumChars c ≤ 12000 ∨ c.length = 1)

/-- loop invariant of the `chunkByChars` fold, at the default bounds. -/
def chunkInv (st : ChunkSt) : Prop :=
  (∀ c ∈ st.chunks, chunkOk c) ∧ st.sum = sumChars st.current
  ∧ st.current.length ≤ 60 ∧ (2 ≤ st.current.length → sumChars st.current ≤ 12000)

/-! # Helper lemmas -/

theorem find?_overwrite_self {κ β : Type} [DecidableEq κ]
    (m : List (κ × β)) (k : κ) (v : β) (h : ∃ e ∈ m, e.1 = k) :
    (m.map (fun e => if e.1 = k then (k, v) else e)).find?
      (fun e => e.1 = k) = some (k, v) := by
  rw [List.find?_map]
  have hfun : ((fun e => decide (e.1 = k)) ∘ (fun e => if e.1 = k then (k, v) else e))
      = (fun (e : κ × β) => decide (e.1 = k)) := by
    funext e
    by_cases he : e.1 = k <;> simp [Function.comp, he]
  rw [hfun]
  obtain ⟨e, hm, hp⟩ := h
  have hsome : (m.find? (fun e => decide (e.1 = k))).isSome := by
    rw [List.find?_isSome]
    exact ⟨e, hm, by simpa using hp⟩
  obtain ⟨e₀, he₀⟩ := Option.isSome_iff_exists.mp hsome
  have hk₀ : e₀.1 = k := by simpa using List.find?_some he₀
  rw [he₀]
  simp [hk₀]

theorem find?_overwrite_ne {κ β : Type} [DecidableEq κ]
    (m : List (κ × β)) (k k' : κ) (v : β) (hne : k' ≠ k) :
    (m.map (fun e => if e.1 = k then (k, v) else e)).find?
      (fun e => e.1 = k') = m.find? (fun e => e.1 = k') := by
  rw [List.find?_map]
  have hfun : ((fun e => decide (e.1 = k')) ∘ (fun e => if e.1 = k then (k, v) else e))
      = (fun (e : κ × β) => decide (e.1 = k')) := by
    funext e
    by_cases he : e.1 = k
    · have h1 : ¬ k = k' := fun h => hne h.symm
      have h2 : ¬ e.1 = k' := by rw [he]; exact h1
      simp [Function.comp, he, h1, h2]
    · simp [Function.comp, he]
  rw [hfun]
  cases hfind : m.find? (fun e => decide (e.1 = k')) with
  | none => rfl
  | some e =>
    have hk' : e.1 = k' := by simpa using List.find?_some hfind
    have hek : ¬ e.1 = k := by rw [hk']; exact hne
    simp [hek]

theorem jget_jset_self {κ β : Type} [DecidableEq κ]
    (m : List (κ × β)) (k : κ) (v : β) : jget (jset m k v) k = some v := by
  unfold jget jset
  split
  case isTrue h =>
    obtain ⟨e, he⟩ := Option.isSome_iff_exists.mp h
    have hm := List.mem_of_find?_eq_some he
    have hp : e.1 = k := by simpa using List.find?_some he
    rw [find?_overwrite_self m k v ⟨e, hm, hp⟩]
    rfl
  case isFalse h =>
    have hn : m.find? (fun e => e.1 = k) = none :=
      Option.not_isSome_iff_eq_none.mp h
    rw [List.find?_append, hn, Option.none_or]
    simp

theorem jget_jset_ne {κ β : Type} [DecidableEq κ]
    (m : List (κ × β)) (k k' : κ) (v : β) (hne : k' ≠ k) :
    jget (jset m k v) k' = jget m k' := by
  unfold jget jset
  split
  case isTrue h => rw [find?_overwrite_ne m k k' v hne]
  case isFalse h =>
    rw [List.find?_append]
    have hkk : ¬ k = k' := fun h => hne h.symm
    have : List.find? (fun e => e.1 = k') [(k, v)] = none := by simp [hkk]
    rw [this]
    cases m.find? (fun e => e.1 = k') <;> rfl

theorem jmapOf_concat {κ β : Type} [DecidableEq κ]
    (l : List (κ × β)) (e : κ × β) :
    jmapOf (l ++ [e]) = jset (jmapOf l) e.1 e.2 := by
  unfold jmapOf
  rw [List.foldl_append]
  rfl

theorem jget_jmapOf {κ β : Type} [DecidableEq κ] (l : List (κ × β)) (k : κ) :
    jget (jmapOf l) k =
      ((l.filter (fun e => e.1 = k)).getLast?).map (·.2) := by
  induction l using List.reverseRecOn with
  | nil => rfl
  | append_singleton l e ih =>
    rw [jmapOf_concat, List.filter_append]
    by_cases he : e.1 = k
    · have hj : jget (jset (jmapOf l) e.1 e.2) k = some e.2 := by
        rw [he]; exact jget_jset_self _ _ _
      rw [hj]
      have hf : List.filter (fun x => decide (x.1 = k)) [e] = [e] := by simp [he]
      rw [hf, List.getLast?_concat]
      rfl
    · rw [jget_jset_ne _ _ _ _ (fun h => he h.symm), ih]
      have : List.filter (fun x => decide (x.1 = k)) [e] = [] := by simp [he]
      rw [this, List.append_nil]

theorem jget_jmapOf_none {κ β : Type} [DecidableEq κ]
    (l : List (κ × β)) (k : κ) (h : ∀ e ∈ l, e.1 ≠ k) :
    jget (jmapOf l) k = none := by
  rw [jget_jmapOf]
  have : l.filter (fun e => e.1 = k) = [] :=
    List.filter_eq_nil_iff.mpr (by simpa using h)
  rw [this]
  rfl

theorem enumMap_getElem? {α β : Type} (f : Nat × α → β) (l : List α) (i : Nat) :
    ((List.enum l).map f)[i]? = l[i]?.map (fun a => f (i, a)) := by
  rw [List.getElem?_map, List.getElem?_enum]
  cases l[i]? <;> rfl

theorem isNonTranslatable_of_all_ws (t : Str) (h : t.all isJsWs = true) :
    isNonTranslatable t = true := by
  unfold isNonTranslatable
  split
  · rfl
  · simp [h]

theorem applyRunTranslations_runs (p : Paragraph) (trs : List TRun) :
    (applyRunTranslations p trs).runs = (List.enum p.runs).map (fun ir =>
      if isNonTranslatable ir.2.text then ir.2
      else
        match jget (jmapOf (trs.map (fun r => (r.index, r.text)))) ir.1 with
        | none => ir.2
        | some t => ⟨preserveWhitespace ir.2.text t, ir.2.font⟩) := rfl

/-! # Claim theorems -/

/-- **C6**: with `keepLineBreaks = false`, `composeText` on the three
paragraphs "Hello", "World", "!" yields "Hello World !" (single space
joiners, none after the last paragraph); with `keepLineBreaks = true` it
yields "Hello\nWorld\n!". -/
theorem composeText_hello_world_joiners :
    (composeText
      [⟨"p0", 5, [⟨"Hello".toList, defaultFontSnapshot⟩], none⟩,
       ⟨"p1", 5, [⟨"World".toList, defaultFontSnapshot⟩], none⟩,
       ⟨"p2", 1, [⟨"!".toList, defaultFontSnapshot⟩], none⟩] false).fullText
      = "Hello World !".toList
  ∧ (composeText
      [⟨"p0", 5, [⟨"Hello".toList, defaultFontSnapshot⟩], none⟩,
       ⟨"p1", 5, [⟨"World".toList, defaultFontSnapshot⟩], none⟩,
       ⟨"p2", 1, [⟨"!".toList, defaultFontSnapshot⟩], none⟩] true).fullText
      = "Hello\nWorld\n!".toList := by
  constructor <;> rfl

/-- **C10**: `preserveWhitespace` splices the original's maximal leading and
trailing whitespace around the trimmed translation; on a non-empty
whitespace-only original both the prefix and the suffix are the whole
original, so the original appears twice in the result — but such runs are
unreachable from `applyRunTranslations`, which returns whitespace-only
(non-translatable) runs unchanged. -/
theorem preserveWhitespace_wsOnly_doubles
    (s t : Str) (p : Paragraph) (trs : List TRun) (i : Nat) (r : Run)
    (_hs : s ≠ []) (hws : s.all isJsWs = true)
    (hr : p.runs[i]? = some r) (hrws : r.text.all isJsWs = true) :
    (∀ o tr : Str, preserveWhitespace o tr = leadWs o ++ jsTrim tr ++ trailWs o)
  ∧ leadWs s = s ∧ trailWs s = s
  ∧ preserveWhitespace s t = s ++ jsTrim t ++ s
  ∧ (applyRunTranslations p trs).runs[i]? = some r := by
  have hlead : leadWs s = s := by
    rw [leadWs, List.takeWhile_eq_self_iff]
    intro c hc
    exact List.all_eq_true.mp hws c hc
  have htrail : trailWs s = s := by
    rw [trailWs]
    have : s.reverse.takeWhile isJsWs = s.reverse := by
      rw [List.takeWhile_eq_self_iff]
      intro c hc
      exact List.all_eq_true.mp hws c (List.mem_reverse.mp hc)
    rw [this, List.reverse_reverse]
  refine ⟨fun o tr => rfl, hlead, htrail, ?_, ?_⟩
  · rw [preserveWhitespace, hlead, htrail]
  · rw [applyRunTranslations_runs, enumMap_getElem?, hr]
    have : isNonTranslatable r.text = true := isNonTranslatable_of_all_ws _ hrws
    simp [this]

/-- **C7**: `applyRunTranslations` replaces run i's text by
`preserveWhitespace(original, translated)` exactly when the run is
translatable and index i is supplied in `translatedRuns` (a JS `Map` lookup,
last entry wins); non-translatable runs and absent indices keep the original
run; fonts and the paragraph's id, originalCharCount and paragraphFormat are
unchanged. -/
theorem applyRunTranslations_frame
    (p : Paragraph) (trs : List TRun) (i : Nat) (r : Run)
    (hr : p.runs[i]? = some r) :
    (isNonTranslatable r.text = true →
       (applyRunTranslations p trs).runs[i]? = some r)
  ∧ (isNonTranslatable r.text = false → ∀ t,
       jget (jmapOf (trs.map (fun tr => (tr.index, tr.text)))) i = some t →
       (applyRunTranslations p trs).runs[i]? =
         some ⟨preserveWhitespace r.text t, r.font⟩)
  ∧ (isNonTranslatable r.text = false → (∀ tr ∈ trs, tr.index ≠ i) →
       (applyRunTranslations p trs).runs[i]? = some r)
  ∧ ((applyRunTranslations p trs).runs[i]?).map Run.font = some r.font
  ∧ (applyRunTranslations p trs).runs.length = p.runs.length
  ∧ (applyRunTranslations p trs).id = p.id
  ∧ (applyRunTranslations p trs).originalCharCount = p.originalCharCount
  ∧ (applyRunTranslations p trs).paragraphFormat = p.paragraphFormat := by
  have hget : (applyRunTranslations p trs).runs[i]? =
      some (if isNonTranslatable r.text then r
        else
          match jget (jmapOf (trs.map (fun tr => (tr.index, tr.text)))) i with
          | none => r
          | some t => ⟨preserveWhitespace r.text t, r.font⟩) := by
    rw [applyRunTranslations_runs, enumMap_getElem?, hr]
    rfl
  refine ⟨?_, ?_, ?_, ?_, ?_, rfl, rfl, rfl⟩
  · intro h
    rw [hget, h]
    simp
  · intro h t ht
    rw [hget, h, ht]
    simp
  · intro h habs
    have hn : jget (jmapOf (trs.map (fun tr => (tr.index, tr.text)))) i = none := by
      apply jget_jmapOf_none
      intro e he
      obtain ⟨tr, htr, rfl⟩ := List.mem_map.mp he
      exact habs tr htr
    rw [hget, h, hn]
    simp
  · rw [hget]
    split
    · rfl
    · split <;> rfl
  · rw [applyRunTranslations_runs, List.length_map, List.enum_length]

theorem applyTableCellRuns_eq (cellRuns : List TableRunSnapshot)
    (trs : List TRun) :
    applyTableCellRuns cellRuns trs = (List.enum cellRuns).map (fun ir =>
      ⟨(jget (jmapOf (trs.map (fun r => (r.index, r.text)))) ir.1).getD ir.2.text,
        ir.2.font⟩) := rfl

theorem sumChars_append (a b : List TranslateBatchItem) :
    sumChars (a ++ b) = sumChars a + sumChars b := by
  unfold sumChars
  rw [List.map_append, List.sum_append]

theorem chunkStep_flatten (mc mi : Nat) (st : ChunkSt) (a : TranslateBatchItem) :
    (chunkStep mc mi st a).chunks.flatten ++ (chunkStep mc mi st a).current
      = st.chunks.flatten ++ st.current ++ [a] := by
  unfold chunkStep
  split
  · cases hc : st.current.isEmpty
    · simp [hc]
    · have hcur : st.current = [] := List.isEmpty_iff.mp hc
      simp [hc, hcur]
  · simp

theorem chunkFold_flatten (mc mi : Nat) (items : List TranslateBatchItem) :
    ∀ st : ChunkSt,
      (items.foldl (chunkStep mc mi) st).chunks.flatten
          ++ (items.foldl (chunkStep mc mi) st).current
        = st.chunks.flatten ++ st.current ++ items := by
  induction items with
  | nil => intro st; simp
  | cons a items ih =>
    intro st
    rw [List.foldl_cons, ih (chunkStep mc mi st a), chunkStep_flatten]
    simp

theorem chunkByChars_flatten (items : List TranslateBatchItem) (mc mi : Nat) :
    (chunkByChars items mc mi).flatten = items := by
  unfold chunkByChars
  have h := chunkFold_flatten mc mi items ⟨[], [], 0⟩
  cases hc : (items.foldl (chunkStep mc mi) ⟨[], [], 0⟩).current.isEmpty
  · simpa [hc] using h
  · have hcur : (items.foldl (chunkStep mc mi) ⟨[], [], 0⟩).current = [] :=
      List.isEmpty_iff.mp hc
    rw [hcur] at h
    simpa [hc] using h

theorem chunkInv_current_ok (st : ChunkSt) (h : chunkInv st)
    (hne : st.current ≠ []) : chunkOk st.current := by
  obtain ⟨_, _, hlen, hsum⟩ := h
  refine ⟨hne, hlen, ?_⟩
  rcases Nat.lt_or_ge st.current.length 2 with hl | hl
  · right
    have : 0 < st.current.length := List.length_pos.mpr hne
    omega
  · exact Or.inl (hsum hl)

theorem chunkStep_inv (st : ChunkSt) (a : TranslateBatchItem)
    (h : chunkInv st) : chunkInv (chunkStep 12000 60 st a) := by
  obtain ⟨hok, hsum, hlen, hbud⟩ := h
  unfold chunkStep
  split
  case isTrue hcond =>
    refine ⟨?_, by simp [sumChars], by simp, by simp⟩
    intro c hc
    rcases List.mem_append.mp hc with h1 | h2
    · exact hok c h1
    · cases hce : st.current.isEmpty
      · have : c = st.current := by
          rw [hce] at h2
          simpa using h2
        subst this
        apply chunkInv_current_ok st ⟨hok, hsum, hlen, hbud⟩
        intro hnil
        rw [hnil] at hce
        simp at hce
      · rw [hce] at h2
        simp at h2
  case isFalse hcond =>
    push_neg at hcond
    obtain ⟨hl, hs⟩ := hcond
    refine ⟨hok, ?_, ?_, ?_⟩
    · rw [sumChars_append, hsum]
      simp [sumChars]
    · simp
      omega
    · intro _
      rw [sumChars_append, ← hsum]
      simpa [sumChars] using Nat.le_of_lt_succ (Nat.lt_succ_of_le hs)

theorem chunkFold_inv (items : List TranslateBatchItem) :
    ∀ st : ChunkSt, chunkInv st →
      chunkInv (items.foldl (chunkStep 12000 60) st) := by
  induction items with
  | nil => intro st h; exact h
  | cons a items ih =>
    intro st h
    exact ih _ (chunkStep_inv st a h)

/-- **C8** (amended): `chunkByChars` with the default bounds partitions the
item list exactly (concatenating the chunks in order gives back the input),
every chunk is non-empty with at most 60 items, and every chunk's total
`originalChars` is at most 12,000 **unless** the chunk is a single item that
alone exceeds the budget (an item is never split). -/
theorem chunkByChars_partition_and_bounds (items : List TranslateBatchItem) :
    (chunkByChars items 12000 60).flatten = items
  ∧ ∀ c ∈ chunkByChars items 12000 60,
      c ≠ [] ∧ c.length ≤ 60 ∧ (sumChars c ≤ 12000 ∨ c.length = 1) := by
  refine ⟨chunkByChars_flatten items 12000 60, ?_⟩
  intro c hc
  have hinv : chunkInv (items.foldl (chunkStep 12000 60) ⟨[], [], 0⟩) := by
    apply chunkFold_inv
    exact ⟨by simp, by simp [sumChars], by simp, by simp⟩
  unfold chunkByChars at hc
  rcases List.mem_append.mp hc with h1 | h2
  · exact hinv.1 c h1
  · cases hce : (items.foldl (chunkStep 12000 60) ⟨[], [], 0⟩).current.isEmpty
    · rw [hce] at h2
      simp at h2
      subst h2
      apply chunkInv_current_ok _ hinv
      intro hnil
      rw [hnil] at hce
      simp at hce
    · rw [hce] at h2
      simp at h2

/-- **C8** (counterexample): a single item of 12,001 characters forms a chunk
whose total `originalChars` exceeds the 12,000 character budget, so the claim
"every chunk's total originalChars is at most 12,000" fails as stated. -/
theorem chunkByChars_budget_counterexample :
    chunkByChars [⟨"p", 12001, [⟨0, ['x']⟩]⟩] 12000 60
      = [[⟨"p", 12001, [⟨0, ['x']⟩]⟩]]
  ∧ sumChars [⟨"p", 12001, [⟨0, ['x']⟩]⟩] = 12001
  ∧ ¬ sumChars [⟨"p", 12001, [⟨0, ['x']⟩]⟩] ≤ 12000 := by
  refine ⟨rfl, rfl, by decide⟩

/-- **C8** (witness): the amended theorem applied to a concrete list. -/
theorem chunkByChars_partition_witness :
    (chunkByChars [⟨"q", 3, [⟨0, ['a']⟩]⟩] 12000 60).flatten
        = [⟨"q", 3, [⟨0, ['a']⟩]⟩]
  ∧ ([⟨"q", 3, [⟨0, ['a']⟩]⟩] : List TranslateBatchItem) ≠ []
    ∧ ([⟨"q", 3, [⟨0, ['a']⟩]⟩] : List TranslateBatchItem).length ≤ 60
    ∧ (sumChars [⟨"q", 3, [⟨0, ['a']⟩]⟩] ≤ 12000
       ∨ ([⟨"q", 3, [⟨0, ['a']⟩]⟩] : List TranslateBatchItem).length = 1) :=
  ⟨(chunkByChars_partition_and_bounds [⟨"q", 3, [⟨0, ['a']⟩]⟩]).1,
   (chunkByChars_partition_and_bounds [⟨"q", 3, [⟨0, ['a']⟩]⟩]).2
     [⟨"q", 3, [⟨0, ['a']⟩]⟩] (by decide)⟩

/-- **C2** (amended): an item is sent to the provider only if at least one of
its runs is translatable (all-non-translatable paragraphs and cells are
dropped by `buildTranslateItems`), and non-translatable runs keep their text
on the shape-text apply path; on the table-cell path a run keeps its text
whenever the provider response does not supply its index.  Non-translatable
runs inside partially-translatable items *are* included in the request. -/
theorem nonTranslatable_request_and_apply
    (targets : SlideTargets) (p : Paragraph) (trs : List TRun) (i : Nat)
    (r : Run) (cellRuns : List TableRunSnapshot) (ctrs : List TRun) (j : Nat)
    (cr : TableRunSnapshot)
    (hr : p.runs[i]? = some r) (hnt : isNonTranslatable r.text = true)
    (hcr : cellRuns[j]? = some cr)
    (habs : ∀ tr ∈ ctrs, tr.index ≠ j) :
    (∀ item ∈ buildTranslateItems targets, isSkippable item.runs = false)
  ∧ (applyRunTranslations p trs).runs[i]? = some r
  ∧ (applyTableCellRuns cellRuns ctrs)[j]? = some cr := by
  refine ⟨?_, ?_, ?_⟩
  · intro item hitem
    rcases List.mem_append.mp hitem with hA | hB
    · obtain ⟨t, _ht, hmem⟩ := List.mem_flatMap.mp hA
      obtain ⟨q, _hq, hf⟩ := List.mem_filterMap.mp hmem
      dsimp only at hf
      split at hf
      · simp at hf
      case isFalse hsk =>
        obtain rfl := Option.some.inj hf
        simpa using hsk
    · obtain ⟨t, _ht, hf⟩ := List.mem_filterMap.mp hB
      dsimp only at hf
      split at hf
      · simp at hf
      case isFalse hsk =>
        obtain rfl := Option.some.inj hf
        simpa using hsk
  · rw [applyRunTranslations_runs, enumMap_getElem?, hr]
    simp [hnt]
  · rw [applyTableCellRuns_eq, enumMap_getElem?, hcr]
    have hn : jget (jmapOf (ctrs.map (fun tr => (tr.index, tr.text)))) j = none := by
      apply jget_jmapOf_none
      intro e he
      obtain ⟨tr, htr, rfl⟩ := List.mem_map.mp he
      exact habs tr htr
    dsimp only
    rw [hn]
    rfl

/-- **C2** (counterexample): with one paragraph whose runs are "Hello" and
"42%", the non-translatable run "42%" *is* included in the provider request
built by `buildTranslateItems`; and on the table-cell path, a provider
response that supplies the index of a non-translatable run *does* change its
text. -/
theorem nonTranslatable_included_counterexample :
    isNonTranslatable "42%".toList = true
  ∧ buildTranslateItems
      ⟨0, [⟨"A", "A",
        [⟨"s0_shapeA_p0", 8,
          [⟨"Hello".toList, defaultFontSnapshot⟩,
           ⟨"42%".toList, defaultFontSnapshot⟩], none⟩]⟩], []⟩
      = [⟨"s0_shapeA_p0", 8, [⟨0, "Hello".toList⟩, ⟨1, "42%".toList⟩]⟩]
  ∧ applyTableCellRuns
      [⟨"Hello".toList, none⟩, ⟨"42%".toList, none⟩] [⟨1, "42 %".toList⟩]
      = [⟨"Hello".toList, none⟩, ⟨"42 %".toList, none⟩]
  ∧ "42 %".toList ≠ "42%".toList := by
  refine ⟨by decide, by decide, by decide, by decide⟩

/-- **C2** (witness): the amended theorem applied at concrete inputs. -/
theorem nonTranslatable_request_and_apply_witness :
    (∀ item ∈ buildTranslateItems
        (⟨0, [], [⟨"T", "T", 0, 0, "s0_shapeT_cell0_0", 2,
          [⟨"42".toList, none⟩]⟩]⟩ : SlideTargets),
        isSkippable item.runs = false)
  ∧ (applyRunTranslations
        ⟨"pw", 3, [⟨"   ".toList, defaultFontSnapshot⟩], none⟩
        [⟨0, "X".toList⟩]).runs[0]?
      = some ⟨"   ".toList, defaultFontSnapshot⟩
  ∧ (applyTableCellRuns [⟨"42%".toList, none⟩] [⟨3, "Y".toList⟩])[0]?
      = some ⟨"42%".toList, none⟩ :=
  nonTranslatable_request_and_apply
    ⟨0, [], [⟨"T", "T", 0, 0, "s0_shapeT_cell0_0", 2, [⟨"42".toList, none⟩]⟩]⟩
    ⟨"pw", 3, [⟨"   ".toList, defaultFontSnapshot⟩], none⟩
    [⟨0, "X".toList⟩] 0 ⟨"   ".toList, defaultFontSnapshot⟩
    [⟨"42%".toList, none⟩] [⟨3, "Y".toList⟩] 0 ⟨"42%".toList, none⟩
    (by decide) (by decide) (by decide) (by decide)

/-- **C7** (witness): the frame theorem applied at a concrete paragraph. -/
theorem applyRunTranslations_frame_witness :
    (applyRunTranslations ⟨"p", 2, [⟨"Hi".toList, defaultFontSnapshot⟩], none⟩
      [⟨0, "Yo".toList⟩]).runs[0]? =
      some ⟨preserveWhitespace "Hi".toList "Yo".toList, defaultFontSnapshot⟩ :=
  (applyRunTranslations_frame
      ⟨"p", 2, [⟨"Hi".toList, defaultFontSnapshot⟩], none⟩
      [⟨0, "Yo".toList⟩] 0 ⟨"Hi".toList, defaultFontSnapshot⟩ (by decide)).2.1
    (by decide) "Yo".toList (by decide)

/-- **C10** (witness): whitespace doubling and unreachability at a concrete
whitespace-only run. -/
theorem preserveWhitespace_wsOnly_doubles_witness :
    preserveWhitespace "  ".toList "x".toList
        = "  ".toList ++ jsTrim "x".toList ++ "  ".toList
  ∧ (applyRunTranslations ⟨"q", 2, [⟨"  ".toList, defaultFontSnapshot⟩], none⟩
      [⟨0, "Z".toList⟩]).runs[0]? = some ⟨"  ".toList, defaultFontSnapshot⟩ :=
  let h := preserveWhitespace_wsOnly_doubles "  ".toList "x".toList
      ⟨"q", 2, [⟨"  ".toList, defaultFontSnapshot⟩], none⟩ [⟨0, "Z".toList⟩] 0
      ⟨"  ".toList, defaultFontSnapshot⟩ (by decide) (by decide) (by decide)
      (by decide)
  ⟨h.2.2.2.1, h.2.2.2.2⟩

theorem concatTexts_cons (r : Run) (l : List Run) :
    concatTexts (r :: l) = r.text ++ concatTexts l := by
  unfold concatTexts
  rw [List.map_cons, List.flatten_cons]

theorem coalesceGo_concat (l : List Run) :
    ∀ cur, concatTexts (coalesceGo cur l) = cur.text ++ concatTexts l := by
  induction l with
  | nil => intro cur; simp [coalesceGo, concatTexts]
  | cons r rest ih =>
    intro cur
    have heq : coalesceGo cur (r :: rest)
        = if fontKey cur.font = fontKey r.font then
            coalesceGo ⟨cur.text ++ r.text, cur.font⟩ rest
          else cur :: coalesceGo r rest := rfl
    rw [heq]
    by_cases h : fontKey cur.font = fontKey r.font
    · rw [if_pos h, ih, concatTexts_cons, List.append_assoc]
    · rw [if_neg h, concatTexts_cons, ih, concatTexts_cons]

theorem coalesce_concat (l : List Run) :
    concatTexts (coalesce l) = concatTexts l := by
  cases l with
  | nil => rfl
  | cons r rest => rw [coalesce, coalesceGo_concat, concatTexts_cons]

theorem flatten_map_singleton (l : Str) : (l.map (fun c => [c])).flatten = l := by
  induction l with
  | nil => rfl
  | cons c cs ih => simp [ih]

theorem charScan_concat (probe : Nat → Nat → RawFont) (pStart : Nat)
    (text : Str) :
    concatTexts (extractRunsByCharScan probe pStart text) = text := by
  rw [extractRunsByCharScan, coalesce_concat]
  unfold concatTexts
  rw [List.map_map]
  rw [show (Run.text ∘ fun ic => (⟨[ic.2],
      safeFontSnapshot (probe (pStart + ic.1) 1)⟩ : Run))
    = (fun c => [c]) ∘ (Prod.snd : Nat × Char → Char) from rfl]
  rw [← List.map_map, List.enum_map_snd, flatten_map_singleton]

theorem tilesN_append (l1 : List (Nat × Nat)) :
    ∀ (a m b : Nat) (l2 : List (Nat × Nat)),
      tilesN a l1 m → tilesN m l2 b → tilesN a (l1 ++ l2) b := by
  induction l1 with
  | nil =>
    intro a m b l2 h1 h2
    obtain rfl : a = m := h1
    exact h2
  | cons p rest ih =>
    intro a m b l2 h1 h2
    obtain ⟨hp, ht⟩ := h1
    exact ⟨hp, ih _ _ _ _ ht h2⟩

theorem tilesN_le_end (l : List (Nat × Nat)) :
    ∀ a b, tilesN a l b → a ≤ b := by
  induction l with
  | nil =>
    intro a b h
    exact Nat.le_of_eq h
  | cons p rest ih =>
    intro a b h
    have := ih _ _ h.2
    omega

theorem tilesN_start_ge (l : List (Nat × Nat)) :
    ∀ a b, tilesN a l b → ∀ p ∈ l, a ≤ p.1 := by
  induction l with
  | nil => intro a b _ p hp; simp at hp
  | cons q rest ih =>
    intro a b h p hp
    rcases List.mem_cons.mp hp with rfl | hm
    · exact Nat.le_of_eq h.1.symm
    · have := ih _ _ h.2 p hm
      omega

theorem splitSpans_tiles (probe : Nat → Nat → RawFont) :
    ∀ len start, tilesN start
      ((splitSpans probe start len).map (fun s => (s.start, s.length)))
      (start + len) := by
  intro len
  induction len using Nat.strong_induction_on with
  | _ len ih =>
    intro start
    rw [splitSpans]
    split
    case isTrue h =>
      rw [List.map_append]
      have hd1 : len / 2 < len := Nat.div_lt_self (by omega) (by omega)
      have hpos : 0 < len / 2 := Nat.div_pos (by omega) (by omega)
      have hd2 : len - len / 2 < len := by omega
      have h1 := ih (len / 2) hd1 start
      have h2 := ih (len - len / 2) hd2 (start + len / 2)
      have he : start + len / 2 + (len - len / 2) = start + len := by omega
      rw [he] at h2
      exact tilesN_append _ _ _ _ _ h1 h2
    case isFalse h =>
      exact ⟨rfl, rfl⟩

theorem splitSpans_pairwise (probe : Nat → Nat → RawFont) :
    ∀ (l : List BSpan) (a b : Nat),
      tilesN a (l.map (fun s => (s.start, s.length))) b →
      l.Pairwise (fun x y => x.start ≤ y.start) := by
  intro l
  induction l with
  | nil => intro a b _; exact List.Pairwise.nil
  | cons s rest ih =>
    intro a b h
    obtain ⟨hs, ht⟩ := h
    refine List.Pairwise.cons ?_ (ih _ _ ht)
    intro y hy
    have : a + s.length ≤ (y.start, y.length).1 :=
      tilesN_start_ge _ _ _ ht (y.start, y.length)
        (List.mem_map.mpr ⟨y, hy, rfl⟩)
    simp only at hs
    omega

theorem sliceL_add (l : Str) (s n m : Nat) :
    sliceL l s (n + m) = sliceL l s n ++ sliceL l (s + n) m := by
  unfold sliceL
  rw [List.take_add]
  congr 1
  rw [List.drop_drop]

theorem tiles_slice_concat (text : Str) (pStart : Nat) (l : List BSpan) :
    ∀ a b, tilesN a (l.map (fun s => (s.start, s.length))) b → pStart ≤ a →
      (l.map (fun s => sliceL text (s.start - pStart) s.length)).flatten
        = sliceL text (a - pStart) (b - a) := by
  induction l with
  | nil =>
    intro a b h _
    obtain rfl : a = b := h
    simp [sliceL]
  | cons s rest ih =>
    intro a b h hp
    obtain ⟨hs, ht⟩ := h
    simp only at hs
    subst hs
    have hle : s.start + s.length ≤ b := tilesN_le_end _ _ _ ht
    rw [List.map_cons, List.flatten_cons, ih _ _ ht (by omega)]
    have hm : b - s.start = s.length + (b - (s.start + s.length)) := by omega
    rw [hm, sliceL_add]
    have he : s.start - pStart + s.length = s.start + s.length - pStart := by
      omega
    rw [he]

theorem binarySplit_concat (probe : Nat → Nat → RawFont) (pStart : Nat)
    (text : Str) :
    concatTexts (extractRunsByBinarySplit probe pStart text) = text := by
  have htiles := splitSpans_tiles probe text.length pStart
  have hsorted : ((splitSpans probe pStart text.length).mergeSort
      (fun a b => a.start ≤ b.start)) = splitSpans probe pStart text.length := by
    apply List.mergeSort_of_sorted
    exact (splitSpans_pairwise probe _ _ _ htiles).imp
      (fun h => decide_eq_true h)
  have hdef : extractRunsByBinarySplit probe pStart text
      = coalesce (((splitSpans probe pStart text.length).mergeSort
          (fun a b => a.start ≤ b.start)).map
        (fun s => ⟨sliceL text (s.start - pStart) s.length, s.font⟩)) := rfl
  rw [hdef, hsorted, coalesce_concat]
  unfold concatTexts
  rw [List.map_map]
  rw [show (Run.text ∘ fun s => (⟨sliceL text (s.start - pStart) s.length,
      s.font⟩ : Run))
    = fun s : BSpan => sliceL text (s.start - pStart) s.length from rfl]
  rw [tiles_slice_concat text pStart _ _ _ htiles (Nat.le_refl _)]
  simp [sliceL]

/-- **C1**: for every paragraph text and every font snapshot the host probe
returns for its substrings, the run lists produced by
`extractRunsByCharScan` and by `extractRunsByBinarySplit` both concatenate
back to the paragraph text exactly (lossless partition). -/
theorem extractRuns_lossless (probe : Nat → Nat → RawFont) (pStart : Nat)
    (text : Str) :
    concatTexts (extractRunsByCharScan probe pStart text) = text
  ∧ concatTexts (extractRunsByBinarySplit probe pStart text) = text :=
  ⟨charScan_concat probe pStart text, binarySplit_concat probe pStart text⟩

theorem sliceL_exact (pre mid post : Str) :
    sliceL (pre ++ (mid ++ post)) pre.length mid.length = mid := by
  unfold sliceL
  rw [List.drop_left, List.take_left]

theorem tilesN_start_le_end (pl : List (Nat × Nat)) :
    ∀ a b, tilesN a pl b → ∀ p ∈ pl, p.1 ≤ b := by
  induction pl with
  | nil => intro a b _ p hp; simp at hp
  | cons q rest ih =>
    intro a b h p hp
    obtain ⟨hq, ht⟩ := h
    rcases List.mem_cons.mp hp with rfl | hm
    · have h1 := tilesN_le_end _ _ _ ht
      omega
    · exact ih _ _ ht p hm

theorem tilesN_chain (pl : List (Nat × Nat)) :
    ∀ a b, tilesN a pl b → List.Chain' (· ≤ ·) (pl.map (·.1)) := by
  induction pl with
  | nil => intro a b _; exact List.chain'_nil
  | cons p rest ih =>
    intro a b h
    obtain ⟨hp, ht⟩ := h
    rw [List.map_cons, List.chain'_cons']
    refine ⟨?_, ih _ _ ht⟩
    intro y hy
    rw [List.head?_map] at hy
    obtain ⟨q, hq, rfl⟩ := Option.map_eq_some'.mp hy
    have hmem : q ∈ rest := List.mem_of_mem_head? hq
    have := tilesN_start_ge _ _ _ ht q hmem
    omega

theorem composeRuns_cons (r : Run) (rest : List Run) (o : Nat) :
    composeRuns (r :: rest) o =
      (r.text ++ (composeRuns rest (o + r.text.length)).1,
       ⟨o, r.text.length, r.font⟩ :: (composeRuns rest (o + r.text.length)).2) :=
  rfl

theorem composeRuns_text (runs : List Run) :
    ∀ offset, (composeRuns runs offset).1 = concatTexts runs := by
  induction runs with
  | nil => intro o; rfl
  | cons r rest ih =>
    intro o
    rw [composeRuns_cons, concatTexts_cons]
    dsimp only
    rw [ih]

theorem composeRuns_tiles (runs : List Run) :
    ∀ offset, tilesN offset
      ((composeRuns runs offset).2.map (fun sp => (sp.start, sp.length)))
      (offset + (composeRuns runs offset).1.length) := by
  induction runs with
  | nil =>
    intro o
    show o = o + ([] : Str).length
    rfl
  | cons r rest ih =>
    intro o
    rw [composeRuns_cons]
    dsimp only
    refine ⟨rfl, ?_⟩
    have h := ih (o + r.text.length)
    have he : o + (r.text ++ (composeRuns rest (o + r.text.length)).1).length
        = o + r.text.length + (composeRuns rest (o + r.text.length)).1.length := by
      rw [List.length_append]
      omega
    rw [he]
    exact h

theorem composeRuns_slices (runs : List Run) :
    ∀ (offset : Nat) (pre post full : Str),
      full = pre ++ (composeRuns runs offset).1 ++ post →
      pre.length = offset →
      List.Forall₂ (fun (r : Run) (sp : RSpan) =>
          sliceL full sp.start sp.length = r.text ∧ sp.font = r.font)
        runs (composeRuns runs offset).2 := by
  induction runs with
  | nil => intro o pre post full _ _; exact List.Forall₂.nil
  | cons r rest ih =>
    intro o pre post full hfull hlen
    rw [composeRuns_cons] at hfull ⊢
    dsimp only at hfull ⊢
    refine List.Forall₂.cons ⟨?_, rfl⟩ ?_
    · have hre : pre ++ (r.text ++ (composeRuns rest (o + r.text.length)).1) ++ post
          = pre ++ (r.text ++ ((composeRuns rest (o + r.text.length)).1 ++ post)) := by
        simp
      rw [hfull, hre, ← hlen, sliceL_exact]
    · apply ih (o + r.text.length) (pre ++ r.text) post full
      · rw [hfull]
        simp
      · rw [List.length_append, hlen]

theorem composeParas_cons (keep : Bool) (p : Paragraph) (rest : List Paragraph)
    (o : Nat) :
    composeParas keep (p :: rest) o =
      ((composeRuns p.runs o).1
        ++ (if rest.isEmpty then [] else [if keep then '\n' else ' '])
        ++ (composeParas keep rest
            (o + (composeRuns p.runs o).1.length
              + (if rest.isEmpty then ([] : Str)
                 else [if keep then '\n' else ' ']).length)).1,
       ⟨o, (composeRuns p.runs o).1.length, p.paragraphFormat⟩
         :: (composeParas keep rest
            (o + (composeRuns p.runs o).1.length
              + (if rest.isEmpty then ([] : Str)
                 else [if keep then '\n' else ' ']).length)).2.1,
       (composeRuns p.runs o).2
         ++ (composeParas keep rest
            (o + (composeRuns p.runs o).1.length
              + (if rest.isEmpty then ([] : Str)
                 else [if keep then '\n' else ' ']).length)).2.2) := rfl

theorem composeParas_spec (keep : Bool) (ps : List Paragraph) :
    ∀ (offset : Nat) (pre post full : Str),
      full = pre ++ (composeParas keep ps offset).1 ++ post →
      pre.length = offset →
      List.Forall₂ (fun (p : Paragraph) (sp : PSpan) =>
          sliceL full sp.start sp.length = concatTexts p.runs
            ∧ sp.format = p.paragraphFormat)
        ps (composeParas keep ps offset).2.1
    ∧ List.Forall₂ (fun (r : Run) (sp : RSpan) =>
          sliceL full sp.start sp.length = r.text ∧ sp.font = r.font)
        (ps.flatMap Paragraph.runs) (composeParas keep ps offset).2.2
    ∧ (∃ groups : List (List RSpan),
        (composeParas keep ps offset).2.2 = groups.flatten
        ∧ List.Forall₂ (fun (g : List RSpan) (sp : PSpan) =>
            tilesN sp.start (g.map (fun s => (s.start, s.length)))
              (sp.start + sp.length))
          groups (composeParas keep ps offset).2.1)
    ∧ List.Chain' (· ≤ ·) ((composeParas keep ps offset).2.2.map RSpan.start)
    ∧ (∀ sp ∈ (composeParas keep ps offset).2.2, offset ≤ sp.start)
    ∧ List.Chain' (· ≤ ·) ((composeParas keep ps offset).2.1.map PSpan.start)
    ∧ (∀ sp ∈ (composeParas keep ps offset).2.1, offset ≤ sp.start) := by
  induction ps with
  | nil =>
    intro o pre post full _ _
    exact ⟨List.Forall₂.nil, List.Forall₂.nil, ⟨[], rfl, List.Forall₂.nil⟩,
      List.chain'_nil, fun sp hsp => absurd hsp (List.not_mem_nil sp),
      List.chain'_nil, fun sp hsp => absurd hsp (List.not_mem_nil sp)⟩
  | cons p rest ih =>
    intro o pre post full hfull hlen
    rw [composeParas_cons] at hfull ⊢
    dsimp only at hfull ⊢
    set cr1 := (composeRuns p.runs o).1 with hcr1
    set crs := (composeRuns p.runs o).2 with hcrs
    set joiner := (if rest.isEmpty then ([] : Str)
      else [if keep then '\n' else ' ']) with hjoin
    set o' := o + cr1.length + joiner.length with ho'
    have hfull' : full = (pre ++ cr1 ++ joiner)
        ++ (composeParas keep rest o').1 ++ post := by
      rw [hfull]
      simp
    have hlen' : (pre ++ cr1 ++ joiner).length = o' := by
      rw [List.length_append, List.length_append, hlen]
    obtain ⟨ihp, ihr, ⟨groups, hgf, hgrel⟩, ihchainr, ihlow, ihchainp, ihlowp⟩ :=
      ih o' (pre ++ cr1 ++ joiner) post full hfull' hlen'
    have hruns := composeRuns_slices p.runs o pre (joiner
        ++ (composeParas keep rest o').1 ++ post) full
      (by rw [hfull]; simp) hlen
    have htiles := composeRuns_tiles p.runs o
    have hlowr : ∀ sp ∈ crs, o ≤ sp.start := by
      intro sp hsp
      have := tilesN_start_ge _ _ _ htiles (sp.start, sp.length)
        (List.mem_map.mpr ⟨sp, hsp, rfl⟩)
      exact this
    have hhighr : ∀ sp ∈ crs, sp.start ≤ o + cr1.length := by
      intro sp hsp
      exact tilesN_start_le_end _ _ _ htiles (sp.start, sp.length)
        (List.mem_map.mpr ⟨sp, hsp, rfl⟩)
    refine ⟨?_, ?_, ?_, ?_, ?_, ?_, ?_⟩
    · refine List.Forall₂.cons ⟨?_, rfl⟩ ihp
      have hre : pre ++ (cr1 ++ joiner ++ (composeParas keep rest o').1) ++ post
          = pre ++ (cr1 ++ (joiner ++ (composeParas keep rest o').1 ++ post)) := by
        simp
      rw [hfull, hre, ← hlen, sliceL_exact, hcr1, composeRuns_text]
    · rw [List.flatMap_cons]
      exact List.rel_append hruns ihr
    · refine ⟨crs :: groups, ?_, ?_⟩
      · rw [List.flatten_cons, hgf]
      · refine List.Forall₂.cons ?_ hgrel
        exact htiles
    · rw [List.map_append]
      have hch := tilesN_chain _ _ _ htiles
      rw [List.map_map] at hch
      refine List.Chain'.append hch ihchainr ?_
      intro x hx y hy
      rw [List.getLast?_map] at hx
      obtain ⟨sx, hsx, rfl⟩ := Option.map_eq_some'.mp hx
      rw [List.head?_map] at hy
      obtain ⟨sy, hsy, rfl⟩ := Option.map_eq_some'.mp hy
      have h1 := hhighr sx (List.mem_of_mem_getLast? hsx)
      have h2 := ihlow sy (List.mem_of_mem_head? hsy)
      omega
    · intro sp hsp
      rcases List.mem_append.mp hsp with h1 | h2
      · exact hlowr sp h1
      · have := ihlow sp h2
        omega
    · rw [List.map_cons, List.chain'_cons']
      refine ⟨?_, ihchainp⟩
      intro y hy
      rw [List.head?_map] at hy
      obtain ⟨sy, hsy, rfl⟩ := Option.map_eq_some'.mp hy
      have h1 := ihlowp sy (List.mem_of_mem_head? hsy)
      have h2 : o ≤ o' := by rw [ho']; omega
      show o ≤ sy.start
      omega
    · intro sp hsp
      rcases List.mem_cons.mp hsp with rfl | hm
      · exact Nat.le_refl o
      · have := ihlowp sp hm
        omega

/-- **C5**: the offset tables of `composeText` correspond exactly to the
composed text: each run span slices out exactly that run's text (with its
font), each paragraph span slices out the concatenation of that paragraph's
run texts (with its format, joiners excluded), span starts are in
non-decreasing order, and the run spans of each paragraph exactly tile its
paragraph span. -/
theorem composeText_spans_exact (ps : List Paragraph) (keep : Bool) :
    List.Forall₂ (fun (r : Run) (sp : RSpan) =>
        sliceL (composeText ps keep).fullText sp.start sp.length = r.text
          ∧ sp.font = r.font)
      (ps.flatMap Paragraph.runs) (composeText ps keep).runSpans
  ∧ List.Forall₂ (fun (p : Paragraph) (sp : PSpan) =>
        sliceL (composeText ps keep).fullText sp.start sp.length
            = concatTexts p.runs
          ∧ sp.format = p.paragraphFormat)
      ps (composeText ps keep).paragraphSpans
  ∧ List.Chain' (· ≤ ·) ((composeText ps keep).runSpans.map RSpan.start)
  ∧ List.Chain' (· ≤ ·) ((composeText ps keep).paragraphSpans.map PSpan.start)
  ∧ ∃ groups : List (List RSpan),
      (composeText ps keep).runSpans = groups.flatten
      ∧ List.Forall₂ (fun (g : List RSpan) (sp : PSpan) =>
          tilesN sp.start (g.map (fun s => (s.start, s.length)))
            (sp.start + sp.length))
        groups (composeText ps keep).paragraphSpans := by
  have h := composeParas_spec keep ps 0 [] []
    (composeParas keep ps 0).1 (by simp) rfl
  obtain ⟨hp, hr, hg, hcr, _, hcp, _⟩ := h
  exact ⟨hr, hp, hcr, hcp, hg⟩

theorem getElem?_some_mem {α : Type} {l : List α} {i : Nat} {a : α}
    (h : l[i]? = some a) : a ∈ l := by
  obtain ⟨hlt, rfl⟩ := List.getElem?_eq_some.mp h
  exact List.getElem_mem hlt

theorem getElem?_lt_length {α : Type} {l : List α} {i : Nat} {a : α}
    (h : l[i]? = some a) : i < l.length :=
  (List.getElem?_eq_some.mp h).1

theorem mem_set_of_ne {α : Type} (l : List α) (w : Nat) (v a b : α)
    (hw : l[w]? = some a) (hb : b ∈ l) (hne : b ≠ a) : b ∈ l.set w v := by
  obtain ⟨p, hp⟩ := List.getElem?_of_mem hb
  have hpw : w ≠ p := by
    intro h
    subst h
    rw [hp] at hw
    exact hne (Option.some.inj hw)
  have hset : (l.set w v)[p]? = some b := by
    rw [List.getElem?_set_ne hpw]
    exact hp
  exact getElem?_some_mem hset

theorem mem_set_self {α : Type} (l : List α) (w : Nat) (v : α)
    (hw : w < l.length) : v ∈ l.set w v := by
  have hset : (l.set w v)[w]? = some v := List.getElem?_set_self hw
  exact getElem?_some_mem hset

theorem TCStep_aborted_mono {n : Nat}
    {resp : Nat → Except String (List TranslationResult)} {s t : TCState}
    (h : TCStep n resp s t) (hab : s.aborted = true) : t.aborted = true := by
  cases h <;> simp_all

theorem TCStep_cursor_frozen {n : Nat}
    {resp : Nat → Except String (List TranslationResult)} {s t : TCState}
    (h : TCStep n resp s t) (hab : s.aborted = true) : t.cursor = s.cursor := by
  cases h <;> simp_all

theorem reach_frozen {n : Nat}
    {resp : Nat → Except String (List TranslationResult)} {s t : TCState}
    (h : Relation.ReflTransGen (TCStep n resp) s t) (hab : s.aborted = true) :
    t.cursor = s.cursor ∧ t.aborted = true := by
  induction h with
  | refl => exact ⟨rfl, hab⟩
  | tail _ step ih =>
    obtain ⟨hc, ha⟩ := ih
    exact ⟨(TCStep_cursor_frozen step ha).trans hc, TCStep_aborted_mono step ha⟩

theorem chunkDone_mono {resp : Nat → Except String (List TranslationResult)}
    {s t : TCState} (i : Nat) (h : chunkDone resp s i)
    (hres : ∀ r ∈ s.results, r ∈ t.results)
    (hfail : WStat.failed ∈ s.workers → WStat.failed ∈ t.workers) :
    chunkDone resp t i := by
  unfold chunkDone at h ⊢
  cases hr : resp i with
  | ok rs =>
    rw [hr] at h
    intro r hrr
    exact hres r (h r hrr)
  | error e =>
    rw [hr] at h
    exact hfail h

theorem TCInv_step {n : Nat}
    {resp : Nat → Except String (List TranslationResult)} {s t : TCState}
    (hstep : TCStep n resp s t) (hinv : TCInv resp s) : TCInv resp t := by
  unfold TCInv at hinv ⊢
  cases hstep with
  | abort =>
    intro i hi
    rcases hinv i hi with ⟨w, hw⟩ | hd
    · exact Or.inl ⟨w, hw⟩
    · exact Or.inr (chunkDone_mono i hd (fun r hr => hr) (fun hf => hf))
  | claim w hw hab hc =>
    intro i hi
    by_cases hic : i = s.cursor
    · subst hic
      exact Or.inl ⟨w, by rw [List.getElem?_set_self (getElem?_lt_length hw)]⟩
    · have hi2 : i < s.cursor + 1 := hi
      have hi' : i < s.cursor := by omega
      rcases hinv i hi' with ⟨w', hw'⟩ | hd
      · left
        refine ⟨w', ?_⟩
        have hww : w ≠ w' := by
          intro h
          subst h
          rw [hw] at hw'
          simp at hw'
        rw [List.getElem?_set_ne hww]
        exact hw'
      · right
        exact chunkDone_mono i hd (fun r hr => hr)
          (fun hf => mem_set_of_ne _ w _ _ _ hw hf (by simp))
  | exitAbort w hw hab =>
    intro i hi
    rcases hinv i hi with ⟨w', hw'⟩ | hd
    · left
      refine ⟨w', ?_⟩
      have hww : w ≠ w' := by
        intro h
        subst h
        rw [hw] at hw'
        simp at hw'
      rw [List.getElem?_set_ne hww]
      exact hw'
    · right
      exact chunkDone_mono i hd (fun r hr => hr)
        (fun hf => mem_set_of_ne _ w _ _ _ hw hf (by simp))
  | exitDone w hw hab hc =>
    intro i hi
    rcases hinv i hi with ⟨w', hw'⟩ | hd
    · left
      refine ⟨w', ?_⟩
      have hww : w ≠ w' := by
        intro h
        subst h
        rw [hw] at hw'
        simp at hw'
      rw [List.getElem?_set_ne hww]
      exact hw'
    · right
      exact chunkDone_mono i hd (fun r hr => hr)
        (fun hf => mem_set_of_ne _ w _ _ _ hw hf (by simp))
  | completeOk w i0 rs hw hr =>
    intro i hi
    rcases hinv i hi with ⟨w', hw'⟩ | hd
    · by_cases hww : w = w'
      · subst hww
        rw [hw] at hw'
        have hii : i0 = i := by
          have h2 := Option.some.inj hw'
          exact WStat.awaiting.inj h2
        subst hii
        right
        unfold chunkDone
        rw [hr]
        intro r hrr
        exact List.mem_append_right _ hrr
      · left
        exact ⟨w', by rw [List.getElem?_set_ne hww]; exact hw'⟩
    · right
      exact chunkDone_mono i hd (fun r hr' => List.mem_append_left _ hr')
        (fun hf => mem_set_of_ne _ w _ _ _ hw hf (by simp))
  | completeErr w i0 e hw hr =>
    intro i hi
    rcases hinv i hi with ⟨w', hw'⟩ | hd
    · by_cases hww : w = w'
      · subst hww
        rw [hw] at hw'
        have hii : i0 = i := by
          have h2 := Option.some.inj hw'
          exact WStat.awaiting.inj h2
        subst hii
        right
        unfold chunkDone
        rw [hr]
        exact mem_set_self _ w _ (getElem?_lt_length hw)
      · left
        exact ⟨w', by rw [List.getElem?_set_ne hww]; exact hw'⟩
    · right
      exact chunkDone_mono i hd (fun r hr' => hr')
        (fun hf => mem_set_of_ne _ w _ _ _ hw hf (by simp))

theorem TCInv_reach {n k : Nat}
    {resp : Nat → Except String (List TranslationResult)} {s : TCState}
    (h : Relation.ReflTransGen (TCStep n resp) (tcInit k) s) :
    TCInv resp s := by
  induction h with
  | refl =>
    unfold TCInv
    intro i hi
    exact absurd hi (Nat.not_lt_zero i)
  | tail _ step ih => exact TCInv_step step ih

theorem terminal_no_awaiting {s : TCState} (ht : terminalTC s) (w i : Nat) :
    s.workers[w]? ≠ some (.awaiting i) := by
  intro h
  have hm : WStat.awaiting i ∈ s.workers := getElem?_some_mem h
  rcases ht _ hm with h1 | h1 <;> simp at h1

theorem terminal_chunkDone {n k : Nat}
    {resp : Nat → Except String (List TranslationResult)} {s : TCState}
    (hreach : Relation.ReflTransGen (TCStep n resp) (tcInit k) s)
    (ht : terminalTC s) (i : Nat) (hi : i < s.cursor) : chunkDone resp s i := by
  rcases TCInv_reach hreach i hi with ⟨w, hw⟩ | hd
  · exact absurd hw (terminal_no_awaiting ht w i)
  · exact hd

theorem scopeLoop_cons (abortAt : Nat → Bool)
    (slideRun : Nat → Except String Nat) (j idx : Nat) (rest : List Nat) :
    scopeLoop abortAt slideRun j (idx :: rest) =
      if abortAt j then .ok ([], true)
      else
        match slideRun idx with
        | .error e => .error e
        | .ok _ =>
          match scopeLoop abortAt slideRun (j + 1) rest with
          | .error e => .error e
          | .ok lb => .ok (idx :: lb.1, lb.2) := rfl

theorem scopeLoop_abort_bound (abortAt : Nat → Bool)
    (slideRun : Nat → Except String Nat) (k : Nat)
    (hmono : ∀ i j, i ≤ j → abortAt i = true → abortAt j = true)
    (hk : abortAt k = true) :
    ∀ (indices : List Nat) (j : Nat) (proc : List Nat) (b : Bool),
      k ≤ j + indices.length →
      scopeLoop abortAt slideRun j indices = .ok (proc, b) →
      proc.length ≤ k - j ∧ b = true := by
  intro indices
  induction indices with
  | nil =>
    intro j proc b hkj hloop
    have hrfl : scopeLoop abortAt slideRun j [] = .ok ([], abortAt j) := rfl
    rw [hrfl] at hloop
    have hpair := Except.ok.inj hloop
    injection hpair with h1 h2
    have hj : abortAt j = true := hmono k j (by simpa using hkj) hk
    subst h1
    subst h2
    exact ⟨by simp, hj⟩
  | cons idx rest ih =>
    intro j proc b hkj hloop
    rw [scopeLoop_cons] at hloop
    by_cases haj : abortAt j = true
    · rw [if_pos haj] at hloop
      have hpair := Except.ok.inj hloop
      injection hpair with h1 h2
      subst h1
      subst h2
      exact ⟨by simp, rfl⟩
    · rw [if_neg haj] at hloop
      have hjk : j < k := by
        by_contra hc
        push_neg at hc
        exact haj (hmono k j hc hk)
      cases hsr : slideRun idx with
      | error e => rw [hsr] at hloop; simp at hloop
      | ok v =>
        rw [hsr] at hloop
        cases hrec : scopeLoop abortAt slideRun (j + 1) rest with
        | error e => rw [hrec] at hloop; simp at hloop
        | ok lb =>
          rw [hrec] at hloop
          have hpair := Except.ok.inj hloop
          injection hpair with h1 h2
          obtain ⟨hl, hb⟩ := ih (j + 1) lb.1 lb.2
            (by simp at hkj ⊢; omega) (by rw [hrec])
          subst h1
          subst h2
          constructor
          · simp only [List.length_cons]
            omega
          · exact hb

/-- **C9**: once the abort signal is observed no new chunk is claimed by any
worker (the shared cursor never advances from an aborted state); chunks
already dispatched run to completion and, in any terminal run, every parsed
response of a dispatched chunk is recorded in the returned results (the
final mapping's source); at the scope level at most the slides before the
abort checkpoint are processed and the final progress report is the
cancelled label rather than the completed one. -/
theorem cancellation_semantics :
    (∀ (n : Nat) (resp : Nat → Except String (List TranslationResult))
       (s t : TCState), s.aborted = true →
       Relation.ReflTransGen (TCStep n resp) s t → t.cursor = s.cursor)
  ∧ (∀ (n k : Nat) (resp : Nat → Except String (List TranslationResult))
       (s : TCState),
       Relation.ReflTransGen (TCStep n resp) (tcInit k) s → terminalTC s →
       (∀ i rs, i < s.cursor → resp i = .ok rs → ∀ r ∈ rs, r ∈ s.results)
       ∧ (WStat.failed ∉ s.workers → outcomeOf s = .ok s.results))
  ∧ (∀ (indices : List Nat) (abortAt : Nat → Bool)
       (slideRun : Nat → Except String Nat) (k : Nat)
       (proc : List Nat) (cancelled : Bool),
       (∀ i j, i ≤ j → abortAt i = true → abortAt j = true) →
       abortAt k = true → k ≤ indices.length →
       scopeLoop abortAt slideRun 0 indices = .ok (proc, cancelled) →
       proc.length ≤ k ∧ cancelled = true) := by
  refine ⟨?_, ?_, ?_⟩
  · intro n resp s t hab hreach
    exact (reach_frozen hreach hab).1
  · intro n k resp s hreach ht
    constructor
    · intro i rs hi hri
      have hd := terminal_chunkDone hreach ht i hi
      unfold chunkDone at hd
      rw [hri] at hd
      exact hd
    · intro hnf
      unfold outcomeOf
      rw [if_neg]
      intro hcon
      exact hnf (by simpa using hcon)
  · intro indices abortAt slideRun k proc cancelled hmono hk hkle hloop
    have := scopeLoop_abort_bound abortAt slideRun k hmono hk indices 0
      proc cancelled (by simpa using hkle) hloop
    simpa using this

/-- **C9** (witness): the cancellation theorem applied at a concrete aborted
run and a concrete two-slide scope cancelled at checkpoint 1. -/
theorem cancellation_semantics_witness :
    (⟨0, true, [WStat.finished], []⟩ : TCState).cursor
      = (⟨0, true, [WStat.idle], []⟩ : TCState).cursor
  ∧ ((∀ i rs, i < (⟨0, false, [WStat.finished], []⟩ : TCState).cursor →
        (fun _ => (Except.ok [] : Except String (List TranslationResult))) i
          = .ok rs →
        ∀ r ∈ rs, r ∈ (⟨0, false, [WStat.finished], []⟩ : TCState).results)
     ∧ (WStat.failed ∉ (⟨0, false, [WStat.finished], []⟩ : TCState).workers →
        outcomeOf ⟨0, false, [WStat.finished], []⟩
          = .ok (⟨0, false, [WStat.finished], []⟩ : TCState).results))
  ∧ (([7] : List Nat).length ≤ 1 ∧ true = true) := by
  refine ⟨?_, ?_, ?_⟩
  · exact cancellation_semantics.1 0
      (fun _ => (Except.ok [] : Except String (List TranslationResult)))
      ⟨0, true, [WStat.idle], []⟩ ⟨0, true, [WStat.finished], []⟩ rfl
      (Relation.ReflTransGen.single
        (TCStep.exitAbort ⟨0, true, [WStat.idle], []⟩ 0 rfl rfl))
  · exact cancellation_semantics.2.1 0 1
      (fun _ => (Except.ok [] : Except String (List TranslationResult)))
      ⟨0, false, [WStat.finished], []⟩
      (Relation.ReflTransGen.single
        (TCStep.exitDone (tcInit 1) 0 rfl rfl (Nat.le_refl 0)))
      (by unfold terminalTC; decide)
  · exact cancellation_semantics.2.2 [7, 8] (fun j => decide (1 ≤ j))
      (fun _ => .ok 1) 1 [7] true
      (fun i j hij hi => decide_eq_true (Nat.le_trans (of_decide_eq_true hi) hij))
      (by decide) (by decide) rfl

theorem c3_trace :
    Relation.ReflTransGen (TCStep 2 c3resp) (tcInit 2)
      ⟨2, false, [WStat.failed, WStat.finished],
        [⟨"p1", [⟨0, "Bonjour".toList⟩]⟩]⟩ := by
  have h01 : TCStep 2 c3resp (tcInit 2)
      ⟨1, false, [WStat.awaiting 0, WStat.idle], []⟩ :=
    TCStep.claim (tcInit 2) 0 rfl rfl (by decide)
  have h12 : TCStep 2 c3resp ⟨1, false, [WStat.awaiting 0, WStat.idle], []⟩
      ⟨2, false, [WStat.awaiting 0, WStat.awaiting 1], []⟩ :=
    TCStep.claim ⟨1, false, [WStat.awaiting 0, WStat.idle], []⟩ 1 rfl rfl
      (by decide)
  have h23 : TCStep 2 c3resp
      ⟨2, false, [WStat.awaiting 0, WStat.awaiting 1], []⟩
      ⟨2, false, [WStat.failed, WStat.awaiting 1], []⟩ :=
    TCStep.completeErr ⟨2, false, [WStat.awaiting 0, WStat.awaiting 1], []⟩
      0 0 "parse" rfl rfl
  have h34 : TCStep 2 c3resp ⟨2, false, [WStat.failed, WStat.awaiting 1], []⟩
      ⟨2, false, [WStat.failed, WStat.idle],
        [⟨"p1", [⟨0, "Bonjour".toList⟩]⟩]⟩ :=
    TCStep.completeOk ⟨2, false, [WStat.failed, WStat.awaiting 1], []⟩
      1 1 [⟨"p1", [⟨0, "Bonjour".toList⟩]⟩] rfl rfl
  have h45 : TCStep 2 c3resp
      ⟨2, false, [WStat.failed, WStat.idle],
        [⟨"p1", [⟨0, "Bonjour".toList⟩]⟩]⟩
      ⟨2, false, [WStat.failed, WStat.finished],
        [⟨"p1", [⟨0, "Bonjour".toList⟩]⟩]⟩ :=
    TCStep.exitDone ⟨2, false, [WStat.failed, WStat.idle],
      [⟨"p1", [⟨0, "Bonjour".toList⟩]⟩]⟩ 1 rfl rfl (by decide)
  exact .head h01 (.head h12 (.head h23 (.head h34 (.single h45))))

/-- **C3** (counterexample): with two chunks, a valid complete run in which
chunk 0's payload is non-parseable while chunk 1 is dispatched, completes
and pushes its results — yet `translateChunks`'s promise rejects
(`Promise.all`), so no results at all are returned; and at the scope level a
rejected slide call makes `translateScope` reject, so the remaining slides
are not processed.  This contradicts the claim that only the failing chunk's
items are affected and the remaining chunks and slides are still processed. -/
theorem provider_error_counterexample :
    c3resp 0 = .error "parse"
  ∧ c3resp 1 = .ok [⟨"p1", [⟨0, "Bonjour".toList⟩]⟩]
  ∧ Relation.ReflTransGen (TCStep 2 c3resp) (tcInit 2)
      ⟨2, false, [WStat.failed, WStat.finished],
        [⟨"p1", [⟨0, "Bonjour".toList⟩]⟩]⟩
  ∧ terminalTC ⟨2, false, [WStat.failed, WStat.finished],
      [⟨"p1", [⟨0, "Bonjour".toList⟩]⟩]⟩
  ∧ outcomeOf ⟨2, false, [WStat.failed, WStat.finished],
      [⟨"p1", [⟨0, "Bonjour".toList⟩]⟩]⟩ = .error ()
  ∧ scopeLoop (fun _ => false)
      (fun i => if i = 0 then .error "parse" else .ok 1) 0 [0, 1, 2]
      = .error "parse" :=
  ⟨rfl, rfl, c3_trace, by unfold terminalTC; decide, rfl, rfl⟩

/-- **C3** (amended): a non-parseable or schema-violating provider payload
for one chunk makes `translateBatch` throw; the worker's promise rejects, so
`translateChunks` (`Promise.all`) rejects and discards all results —
including those of chunks that succeeded — and the rejection propagates
through `translateAndMaybeApplySlide` and `translateScope`, so the remaining
slides of the scope are not processed; the error is surfaced to the caller. -/
theorem provider_error_rejects_call
    (n k : Nat) (resp : Nat → Except String (List TranslationResult))
    (s : TCState) (idx : Nat) (rest : List Nat) (abortAt : Nat → Bool)
    (slideRun : Nat → Except String Nat) (e e' : String) (i : Nat)
    (hreach : Relation.ReflTransGen (TCStep n resp) (tcInit k) s)
    (ht : terminalTC s) (hi : i < s.cursor) (hri : resp i = .error e)
    (hab0 : abortAt 0 = false) (hsr : slideRun idx = .error e') :
    outcomeOf s = .error ()
  ∧ scopeLoop abortAt slideRun 0 (idx :: rest) = .error e' := by
  constructor
  · have hd := terminal_chunkDone hreach ht i hi
    unfold chunkDone at hd
    rw [hri] at hd
    unfold outcomeOf
    rw [if_pos]
    simpa using hd
  · rw [scopeLoop_cons, hab0]
    simp only [Bool.false_eq_true, if_false]
    rw [hsr]

/-- **C3** (witness): the amended theorem applied at the concrete failing
trace of the counterexample scenario. -/
theorem provider_error_rejects_call_witness :
    outcomeOf ⟨2, false, [WStat.failed, WStat.finished],
      [⟨"p1", [⟨0, "Bonjour".toList⟩]⟩]⟩ = .error ()
  ∧ scopeLoop (fun _ => false)
      (fun i => if i = 0 then .error "parse" else .ok 1) 0 [0, 1, 2]
      = .error "parse" :=
  provider_error_rejects_call 2 2 c3resp
    ⟨2, false, [WStat.failed, WStat.finished],
      [⟨"p1", [⟨0, "Bonjour".toList⟩]⟩]⟩
    0 [1, 2] (fun _ => false)
    (fun i => if i = 0 then .error "parse" else .ok 1) "parse" "parse" 0
    c3_trace (by unfold terminalTC; decide) (by decide) rfl rfl rfl

theorem dedupStep_spec (cache0 : List (List Str × List TRun))
    (L : List TranslateBatchItem) (st : DedupSt) (it : TranslateBatchItem)
    (h : dedupSpec cache0 L st) :
    dedupSpec cache0 (L ++ [it]) (dedupStep st it) := by
  unfold dedupSpec keyIdsSpec pendingSpec resultsSpec at h ⊢
  obtain ⟨hc, hk, hp, hr⟩ := h
  unfold dedupStep
  dsimp only
  rw [hc]
  cases hcache : jget cache0 (translateKey it) with
  | some cached =>
    have hsome : (jget cache0 (translateKey it)).isSome = true := by
      rw [hcache]; rfl
    refine ⟨rfl, ?_, ?_, ?_⟩
    · intro k
      show jget st.keyToIds k = _
      rw [hk k]
      by_cases hks : (jget cache0 k).isSome
      · simp [hks]
      · have hkne : ¬ translateKey it = k := by
          intro hh
          rw [← hh, hcache] at hks
          simp at hks
        simp [hks, List.filter_append, List.filter_cons, hkne]
    · intro k
      show List.countP (fun x => translateKey x = k) st.pending = _
      rw [hp k]
      by_cases hks : (jget cache0 k).isSome
      · simp [hks]
      · have hkne : ¬ translateKey it = k := by
          intro hh
          rw [← hh, hcache] at hks
          simp at hks
        simp [hks, List.filter_append, List.filter_cons, hkne]
    · show st.allResults ++ [⟨it.paragraphId, cached⟩] = _
      rw [hr, List.filter_append]
      simp [List.filter_cons, hsome, hcache]
  | none =>
    rw [hk (translateKey it)]
    have hns : (jget cache0 (translateKey it)).isSome = false := by
      rw [hcache]; rfl
    rw [hns]
    simp only [Bool.false_eq_true, if_false]
    by_cases hfe :
        (L.filter (fun x => translateKey x = translateKey it)).isEmpty
    · rw [if_pos hfe]
      have hLnil : L.filter (fun x => translateKey x = translateKey it) = [] :=
        List.isEmpty_iff.mp hfe
      refine ⟨rfl, ?_, ?_, ?_⟩
      · intro k
        by_cases hkk : k = translateKey it
        · subst hkk
          show jget (jset st.keyToIds (translateKey it) [it.paragraphId])
              (translateKey it) = _
          rw [jget_jset_self]
          simp [hns, List.filter_append, List.filter_cons, hLnil]
        · show jget (jset st.keyToIds (translateKey it) [it.paragraphId]) k = _
          rw [jget_jset_ne _ _ _ _ hkk, hk k]
          by_cases hks : (jget cache0 k).isSome
          · simp [hks]
          · have hkne : ¬ translateKey it = k := fun hh => hkk hh.symm
            simp [hks, List.filter_append, List.filter_cons, hkne]
      · intro k
        show (st.pending ++ [it]).countP (fun x => translateKey x = k) = _
        rw [List.countP_append, hp k]
        by_cases hkk : translateKey it = k
        · subst hkk
          simp [hns, hfe, hLnil, List.filter_append, List.filter_cons,
            List.countP_cons]
        · by_cases hks : (jget cache0 k).isSome
          · simp [hks, List.countP_cons, hkk]
          · simp [hks, List.countP_cons, hkk, List.filter_append,
              List.filter_cons]
      · show st.allResults = _
        rw [hr, List.filter_append]
        simp [List.filter_cons, hns]
    · rw [if_neg hfe]
      refine ⟨rfl, ?_, ?_, ?_⟩
      · intro k
        by_cases hkk : k = translateKey it
        · subst hkk
          show jget (jset st.keyToIds (translateKey it) _) (translateKey it) = _
          rw [jget_jset_self]
          simp [hns, List.filter_append, List.filter_cons, List.map_append]
        · show jget (jset st.keyToIds (translateKey it) _) k = _
          rw [jget_jset_ne _ _ _ _ hkk, hk k]
          by_cases hks : (jget cache0 k).isSome
          · simp [hks]
          · have hkne : ¬ translateKey it = k := fun hh => hkk hh.symm
            simp [hks, List.filter_append, List.filter_cons, hkne]
      · intro k
        show st.pending.countP (fun x => translateKey x = k) = _
        rw [hp k]
        by_cases hkk : translateKey it = k
        · subst hkk
          simp [hns, hfe, List.filter_append, List.filter_cons]
        · by_cases hks : (jget cache0 k).isSome
          · simp [hks]
          · simp [hks, List.filter_append, List.filter_cons, hkk]
      · show st.allResults = _
        rw [hr, List.filter_append]
        simp [List.filter_cons, hns]

theorem dedupFold_spec (cache0 : List (List Str × List TRun))
    (items : List TranslateBatchItem) :
    ∀ (L : List TranslateBatchItem) (st : DedupSt),
      dedupSpec cache0 L st →
      dedupSpec cache0 (L ++ items) (items.foldl dedupStep st) := by
  induction items with
  | nil => intro L st h; simpa using h
  | cons it rest ih =>
    intro L st h
    rw [List.foldl_cons]
    have h2 := ih (L ++ [it]) (dedupStep st it) (dedupStep_spec cache0 L st it h)
    have he : L ++ [it] ++ rest = L ++ it :: rest := by simp
    rw [he] at h2
    exact h2

theorem dedupItems_spec (items : List TranslateBatchItem)
    (cache0 : List (List Str × List TRun)) :
    dedupSpec cache0 items (dedupItems items cache0) := by
  have hbase : dedupSpec cache0 [] ⟨cache0, [], [], [], []⟩ := by
    unfold dedupSpec keyIdsSpec pendingSpec resultsSpec
    refine ⟨rfl, ?_, ?_, rfl⟩
    · intro k
      cases hks : (jget cache0 k).isSome <;> simp [jget, hks]
    · intro k
      cases hks : (jget cache0 k).isSome <;> simp [hks]
  have h := dedupFold_spec cache0 items [] ⟨cache0, [], [], [], []⟩ hbase
  simpa [dedupItems] using h

theorem countP_pid_unique (items : List TranslateBatchItem)
    (hnd : (items.map TranslateBatchItem.paragraphId).Nodup)
    (q : TranslateBatchItem → Bool) (it : TranslateBatchItem)
    (hmem : it ∈ items) :
    items.countP (fun x => decide (x.paragraphId = it.paragraphId) && q x)
      = if q it then 1 else 0 := by
  cases hq : q it
  · rw [if_neg (by simp [hq])]
    rw [List.countP_eq_zero]
    intro x hx
    simp only [Bool.and_eq_true, decide_eq_true_eq]
    rintro ⟨hpx, hqx⟩
    have hxit : x = it := List.inj_on_of_nodup_map hnd hx hmem hpx
    rw [hxit, hq] at hqx
    exact Bool.false_ne_true hqx
  · rw [if_pos rfl]
    have h1 : items.countP (fun x => decide (x.paragraphId = it.paragraphId))
        = (items.map TranslateBatchItem.paragraphId).countP
            (fun s => decide (s = it.paragraphId)) := by
      rw [List.countP_map]
      rfl
    have h2 : (items.map TranslateBatchItem.paragraphId).countP
        (fun s => decide (s = it.paragraphId))
        = (items.map TranslateBatchItem.paragraphId).count it.paragraphId := by
      have hfun : (fun (s : String) => decide (s = it.paragraphId))
          = (fun s => s == it.paragraphId) := by
        funext s
        by_cases h : s = it.paragraphId <;> simp [h]
      rw [hfun]
      rfl
    have hub : items.countP (fun x => decide (x.paragraphId = it.paragraphId)) ≤ 1 := by
      rw [h1, h2]
      exact List.nodup_iff_count_le_one.mp hnd it.paragraphId
    have hmono : items.countP
        (fun x => decide (x.paragraphId = it.paragraphId) && q x)
        ≤ items.countP (fun x => decide (x.paragraphId = it.paragraphId)) := by
      apply List.countP_mono_left
      intro x _ h
      simp only [Bool.and_eq_true] at h
      exact h.1
    have hpos : 0 < items.countP
        (fun x => decide (x.paragraphId = it.paragraphId) && q x) :=
      List.countP_pos_iff.mpr ⟨it, hmem, by simp [hq]⟩
    omega

theorem keyIds_countP (items : List TranslateBatchItem)
    (cache0 : List (List Str × List TRun))
    (hnd : (items.map TranslateBatchItem.paragraphId).Nodup)
    (itw : TranslateBatchItem) (hw : itw ∈ items)
    (k : List Str) (ids : List String)
    (hids : jget (dedupItems items cache0).keyToIds k = some ids) :
    ids.countP (fun x => x = itw.paragraphId)
      = if translateKey itw = k then 1 else 0 := by
  obtain ⟨_, hk, _, _⟩ := dedupItems_spec items cache0
  rw [hk k] at hids
  by_cases hks : (jget cache0 k).isSome
  · rw [if_pos hks] at hids
    exact absurd hids (by simp)
  · rw [if_neg hks] at hids
    by_cases hfe : (items.filter (fun x => translateKey x = k)).isEmpty
    · rw [if_pos hfe] at hids
      exact absurd hids (by simp)
    · rw [if_neg hfe] at hids
      have hids' := Option.some.inj hids
      rw [← hids', List.countP_map]
      have hcomp : ((fun x => decide (x = itw.paragraphId))
            ∘ TranslateBatchItem.paragraphId)
          = fun x => decide (x.paragraphId = itw.paragraphId) := rfl
      rw [hcomp, List.countP_filter,
        countP_pid_unique items hnd (fun x => translateKey x = k) itw hw]
      by_cases hkk : translateKey itw = k <;> simp [hkk]

theorem mem_filter_not_isEmpty {α : Type} (l : List α) (p : α → Bool) (a : α)
    (ha : a ∈ l) (hpa : p a = true) : (l.filter p).isEmpty = false := by
  have hm : a ∈ l.filter p := List.mem_filter.mpr ⟨ha, hpa⟩
  cases he : (l.filter p).isEmpty
  · rfl
  · rw [List.isEmpty_iff.mp he] at hm
    cases hm

theorem dedup_allResults_filter (items : List TranslateBatchItem)
    (cache0 : List (List Str × List TRun))
    (hnd : (items.map TranslateBatchItem.paragraphId).Nodup)
    (itw : TranslateBatchItem) (hw : itw ∈ items) :
    (((dedupItems items cache0).allResults.filter
        (fun r => r.paragraphId = itw.paragraphId)).map
      TranslationResult.translatedRuns)
      = if (jget cache0 (translateKey itw)).isSome
        then [(jget cache0 (translateKey itw)).getD []] else [] := by
  obtain ⟨_, _, _, hr⟩ := dedupItems_spec items cache0
  rw [hr, List.filter_map, List.map_map, List.filter_filter]
  dsimp only [Function.comp]
  have hcnt := countP_pid_unique items hnd
    (fun x => (jget cache0 (translateKey x)).isSome) itw hw
  rw [List.countP_eq_length_filter] at hcnt
  dsimp only at hcnt
  cases hqs : (jget cache0 (translateKey itw)).isSome
  · rw [hqs] at hcnt
    simp only [Bool.false_eq_true, if_false] at hcnt
    have hnil := List.length_eq_zero.mp hcnt
    rw [hnil]
    rfl
  · rw [hqs] at hcnt
    simp at hcnt
    obtain ⟨x, hxl⟩ := List.length_eq_one.mp hcnt
    have hxmem : x ∈ items.filter
        (fun a => decide (a.paragraphId = itw.paragraphId)
          && (jget cache0 (translateKey a)).isSome) := by
      rw [hxl]
      exact List.mem_singleton.mpr rfl
    have hxp := List.mem_filter.mp hxmem
    have hx1 : x.paragraphId = itw.paragraphId := by
      have := hxp.2
      simp only [Bool.and_eq_true, decide_eq_true_eq] at this
      exact this.1
    have hxit : x = itw := List.inj_on_of_nodup_map hnd hxp.1 hw hx1
    rw [hxl, hxit]
    rfl

theorem fanOutStep_filter (D : DedupSt)
    (acc : List (List Str × List TRun) × List TranslationResult)
    (r : TranslationResult) (id : String) :
    (((fanOutStep D acc r).2).filter (fun x => x.paragraphId = id)).map
        TranslationResult.translatedRuns
      = ((acc.2.filter (fun x => x.paragraphId = id)).map
          TranslationResult.translatedRuns)
        ++ List.replicate
            (match jget D.idToKey r.paragraphId with
             | none => 0
             | some k =>
               ((jget D.keyToIds k).getD []).countP (fun x => x = id))
            r.translatedRuns := by
  unfold fanOutStep
  cases hik : jget D.idToKey r.paragraphId with
  | none => simp
  | some k =>
    rw [List.filter_append, List.map_append]
    congr 1
    rw [List.filter_map, List.map_map]
    simp only [Function.comp_def]
    dsimp only
    rw [List.map_const', List.countP_eq_length_filter]

theorem fanOut_filter_pair (D : DedupSt) (id1 id2 : String)
    (hcnt : ∀ (k : List Str) (ids : List String),
      jget D.keyToIds k = some ids →
      ids.countP (fun x => x = id1) = ids.countP (fun x => x = id2)) :
    ∀ (rs : List TranslationResult)
      (acc : List (List Str × List TRun) × List TranslationResult),
      ((acc.2.filter (fun x => x.paragraphId = id1)).map
          TranslationResult.translatedRuns
        = (acc.2.filter (fun x => x.paragraphId = id2)).map
            TranslationResult.translatedRuns) →
      (((rs.foldl (fanOutStep D) acc).2.filter
          (fun x => x.paragraphId = id1)).map TranslationResult.translatedRuns
        = ((rs.foldl (fanOutStep D) acc).2.filter
            (fun x => x.paragraphId = id2)).map
          TranslationResult.translatedRuns) := by
  intro rs
  induction rs with
  | nil => intro acc h; exact h
  | cons r rs ih =>
    intro acc h
    rw [List.foldl_cons]
    apply ih
    rw [fanOutStep_filter D acc r id1, fanOutStep_filter D acc r id2, h]
    have hrep : (match jget D.idToKey r.paragraphId with
         | none => 0
         | some k => ((jget D.keyToIds k).getD []).countP (fun x => x = id1))
        = (match jget D.idToKey r.paragraphId with
           | none => 0
           | some k =>
             ((jget D.keyToIds k).getD []).countP (fun x => x = id2)) := by
      cases hik : jget D.idToKey r.paragraphId with
      | none => rfl
      | some k =>
        show ((jget D.keyToIds k).getD []).countP (fun x => x = id1)
          = ((jget D.keyToIds k).getD []).countP (fun x => x = id2)
        cases hkt : jget D.keyToIds k with
        | none => rfl
        | some ids => exact hcnt k ids hkt
    rw [hrep]

theorem fanOut_filter_frozen (D : DedupSt) (id : String)
    (hz : ∀ (k : List Str) (ids : List String),
      jget D.keyToIds k = some ids → ids.countP (fun x => x = id) = 0) :
    ∀ (rs : List TranslationResult)
      (acc : List (List Str × List TRun) × List TranslationResult),
      (((rs.foldl (fanOutStep D) acc).2.filter
          (fun x => x.paragraphId = id)).map TranslationResult.translatedRuns
        = (acc.2.filter (fun x => x.paragraphId = id)).map
            TranslationResult.translatedRuns) := by
  intro rs
  induction rs with
  | nil => intro acc; rfl
  | cons r rs ih =>
    intro acc
    rw [List.foldl_cons, ih (fanOutStep D acc r), fanOutStep_filter D acc r id]
    have hrep : (match jget D.idToKey r.paragraphId with
         | none => 0
         | some k => ((jget D.keyToIds k).getD []).countP (fun x => x = id))
        = 0 := by
      cases hik : jget D.idToKey r.paragraphId with
      | none => rfl
      | some k =>
        show ((jget D.keyToIds k).getD []).countP (fun x => x = id) = 0
        cases hkt : jget D.keyToIds k with
        | none => rfl
        | some ids => exact hz k ids hkt
    rw [hrep]
    simp

theorem jget_resultMap (res : List TranslationResult) (id : String) :
    jget (resultMap res) id
      = ((res.filter (fun r => r.paragraphId = id)).map
          TranslationResult.translatedRuns).getLast? := by
  unfold resultMap
  rw [jget_jmapOf, List.filter_map, List.getLast?_map, List.getLast?_map,
    Option.map_map]
  rfl

/-- **C4**: within one `translateAndMaybeApplySlide` invocation, two items
with identical ordered run-text sequences (equal `translateKey`
fingerprints) cause exactly one provider call: on a cache miss the pending
list — and hence the chunked provider requests — contain the fingerprint
exactly once, and on a cache hit not at all; and both paragraph ids receive
identical translatedRuns in the final mapping, via the fingerprint cache
and the `keyToIds` fan-out. -/
theorem dedup_one_call_identical_results
    (items : List TranslateBatchItem) (cache0 : List (List Str × List TRun))
    (it1 it2 : TranslateBatchItem)
    (hnd : (items.map TranslateBatchItem.paragraphId).Nodup)
    (h1 : it1 ∈ items) (h2 : it2 ∈ items)
    (hkey : translateKey it1 = translateKey it2) :
    (jget cache0 (translateKey it1) = none →
      (dedupItems items cache0).pending.countP
          (fun x => translateKey x = translateKey it1) = 1
      ∧ ((chunkByChars (dedupItems items cache0).pending 12000 60).map
          (List.countP (fun x => translateKey x = translateKey it1))).sum = 1)
  ∧ (∀ rs : List TranslationResult,
      jget (resultMap (fanOut (dedupItems items cache0) rs).2) it1.paragraphId
        = jget (resultMap (fanOut (dedupItems items cache0) rs).2)
            it2.paragraphId)
  ∧ (∀ cached : List TRun, jget cache0 (translateKey it1) = some cached →
      (dedupItems items cache0).pending.countP
          (fun x => translateKey x = translateKey it1) = 0
      ∧ ∀ rs : List TranslationResult,
          jget (resultMap (fanOut (dedupItems items cache0) rs).2)
            it1.paragraphId = some cached) := by
  obtain ⟨hcache, hkspec, hpspec, hrspec⟩ := dedupItems_spec items cache0
  refine ⟨?_, ?_, ?_⟩
  · intro hmiss
    have hns : (jget cache0 (translateKey it1)).isSome = false := by
      rw [hmiss]; rfl
    have hfe : (items.filter
        (fun x => translateKey x = translateKey it1)).isEmpty = false :=
      mem_filter_not_isEmpty items _ it1 h1 (by simp)
    have hcount := hpspec (translateKey it1)
    rw [hns, hfe] at hcount
    simp only [Bool.not_false, Bool.and_self, if_pos] at hcount
    refine ⟨hcount, ?_⟩
    rw [← List.countP_flatten, chunkByChars_flatten]
    exact hcount
  · intro rs
    have hcnt : ∀ (k : List Str) (ids : List String),
        jget (dedupItems items cache0).keyToIds k = some ids →
        ids.countP (fun x => x = it1.paragraphId)
          = ids.countP (fun x => x = it2.paragraphId) := by
      intro k ids hids
      rw [keyIds_countP items cache0 hnd it1 h1 k ids hids,
          keyIds_countP items cache0 hnd it2 h2 k ids hids, hkey]
    have hbase1 := dedup_allResults_filter items cache0 hnd it1 h1
    have hbase2 := dedup_allResults_filter items cache0 hnd it2 h2
    rw [← hkey] at hbase2
    have hfo : fanOut (dedupItems items cache0) rs
        = rs.foldl (fanOutStep (dedupItems items cache0))
            ((dedupItems items cache0).cache,
             (dedupItems items cache0).allResults) := rfl
    rw [jget_resultMap, jget_resultMap, hfo]
    rw [fanOut_filter_pair (dedupItems items cache0) it1.paragraphId
      it2.paragraphId hcnt rs _ (by rw [hbase1, hbase2])]
  · intro cached hhit
    have hsome : (jget cache0 (translateKey it1)).isSome = true := by
      rw [hhit]; rfl
    constructor
    · have hcount := hpspec (translateKey it1)
      rw [hsome] at hcount
      simpa using hcount
    · intro rs
      have hz : ∀ (k : List Str) (ids : List String),
          jget (dedupItems items cache0).keyToIds k = some ids →
          ids.countP (fun x => x = it1.paragraphId) = 0 := by
        intro k ids hids
        rw [keyIds_countP items cache0 hnd it1 h1 k ids hids]
        rw [if_neg]
        intro hkk
        subst hkk
        rw [hkspec (translateKey it1)] at hids
        simp [hsome] at hids
      have hfo : fanOut (dedupItems items cache0) rs
          = rs.foldl (fanOutStep (dedupItems items cache0))
              ((dedupItems items cache0).cache,
               (dedupItems items cache0).allResults) := rfl
      rw [jget_resultMap, hfo,
        fanOut_filter_frozen (dedupItems items cache0) it1.paragraphId hz rs _]
      rw [dedup_allResults_filter items cache0 hnd it1 h1]
      rw [if_pos hsome, hhit]
      rfl

/-- **C4** (witness): the dedup theorem applied at two concrete items with
identical run texts and an empty cache. -/
theorem dedup_one_call_identical_results_witness :
    ((dedupItems [⟨"a", 2, [⟨0, "Hi".toList⟩]⟩, ⟨"b", 2, [⟨0, "Hi".toList⟩]⟩]
        []).pending.countP
      (fun x => translateKey x
        = translateKey ⟨"a", 2, [⟨0, "Hi".toList⟩]⟩) = 1
    ∧ ((chunkByChars (dedupItems
          [⟨"a", 2, [⟨0, "Hi".toList⟩]⟩, ⟨"b", 2, [⟨0, "Hi".toList⟩]⟩]
          []).pending 12000 60).map
        (List.countP (fun x => translateKey x
          = translateKey ⟨"a", 2, [⟨0, "Hi".toList⟩]⟩))).sum = 1)
  ∧ jget (resultMap (fanOut (dedupItems
        [⟨"a", 2, [⟨0, "Hi".toList⟩]⟩, ⟨"b", 2, [⟨0, "Hi".toList⟩]⟩] [])
        [⟨"a", [⟨0, "Salut".toList⟩]⟩]).2)
      (TranslateBatchItem.paragraphId ⟨"a", 2, [⟨0, "Hi".toList⟩]⟩)
    = jget (resultMap (fanOut (dedupItems
        [⟨"a", 2, [⟨0, "Hi".toList⟩]⟩, ⟨"b", 2, [⟨0, "Hi".toList⟩]⟩] [])
        [⟨"a", [⟨0, "Salut".toList⟩]⟩]).2)
      (TranslateBatchItem.paragraphId ⟨"b", 2, [⟨0, "Hi".toList⟩]⟩) :=
  ⟨(dedup_one_call_identical_results
      [⟨"a", 2, [⟨0, "Hi".toList⟩]⟩, ⟨"b", 2, [⟨0, "Hi".toList⟩]⟩] []
      ⟨"a", 2, [⟨0, "Hi".toList⟩]⟩ ⟨"b", 2, [⟨0, "Hi".toList⟩]⟩
      (by decide) (by decide) (by decide) rfl).1 rfl,
   (dedup_one_call_identical_results
      [⟨"a", 2, [⟨0, "Hi".toList⟩]⟩, ⟨"b", 2, [⟨0, "Hi".toList⟩]⟩] []
      ⟨"a", 2, [⟨0, "Hi".toList⟩]⟩ ⟨"b", 2, [⟨0, "Hi".toList⟩]⟩
      (by decide) (by decide) (by decide) rfl).2.1
     [⟨"a", [⟨0, "Salut".toList⟩]⟩]⟩

end PPT
